import Mathlib

/-!
# Limit order book: price-time ranking, matching pass and snapshots

A shallow embedding of `src/order.h`, `src/orderbook.h` and `src/orderbook.cpp`.

Modelling decisions.

* `double price` is a rational number.  The code never does arithmetic on a price, it
  only compares prices with `!=`, `<`, `>` and `>=`; on the finite doubles these
  comparisons agree with the order of the rationals.  NaN prices are outside the model.
* `uint64_t` values are natural numbers.  The only arithmetic that can leave the 64-bit
  range is `trades_executed_++`, which is written with an explicit `% 2 ^ 64`.  The two
  subtractions `qty -= trade_qty` subtract the minimum of the two quantities, so they
  never wrap (`qty_sub_no_wrap`) and are written with the subtraction of `Nat`.
* `std::priority_queue<Order, std::vector<Order>, Cmp>` is the list of the orders it
  holds.  `top()` is a greatest element for `Cmp`, `pop()` removes that element and
  `push` adds one.  Two orders that `Cmp` cannot tell apart (same price and same id) are
  served in list order; the standard library leaves that choice open.
* `rows.reserve(n)` in `snapshot_pq` throws when `n` rows cannot be reserved
  (`std::length_error` above `max_size()`, `std::bad_alloc` when memory is short).
  `reserve_ok` says when the call returns, and `top_buys`/`top_sells` give `none` for the
  exception.  Other allocations (`push`, the copies of `Order`) are taken to succeed.
* `std::mutex` and the threads of `src/main.cpp` are not modelled: every operation is a
  function from the book before the call to the book after it.
-/

namespace TradingSim

/-! ## Data model (`src/order.h`, `src/orderbook.h`) -/

/-- The record `struct Order` of `src/order.h`. -/
structure Order where
  id : Nat
  trader : String
  is_buy : Bool
  price : ℚ
  qty : Nat
  time : Nat
deriving DecidableEq

/-- The record `struct TopRow` of `src/orderbook.h`. -/
structure TopRow where
  price : ℚ
  qty : Nat
  earliest_order_id : Nat
deriving DecidableEq

/-- The private state of `class OrderBook`. -/
structure OrderBook where
  symbol_ : String
  buys_ : List Order
  sells_ : List Order
  trades_executed_ : Nat
deriving DecidableEq

/-- The comparator `OrderBook::BuyCmp`: `true` when `a` has lower priority than `b`. -/
def BuyCmp (a b : Order) : Bool :=
  if a.price ≠ b.price then decide (a.price < b.price) else decide (a.id > b.id)

/-- The comparator `OrderBook::SellCmp`: `true` when `a` has lower priority than `b`. -/
def SellCmp (a b : Order) : Bool :=
  if a.price ≠ b.price then decide (a.price > b.price) else decide (a.id > b.id)

/-! ## The priority queue -/

/-- The member `top()` of `std::priority_queue`: an element that is not below any other
for `cmp`; `none` on the empty queue. -/
def pq_top (cmp : Order → Order → Bool) : List Order → Option Order
  | [] => none
  | x :: xs =>
    match pq_top cmp xs with
    | none => some x
    | some m => if cmp x m then some m else some x

/-- The member `pop()` of `std::priority_queue`: removes the element `top()` returns. -/
def pq_pop (cmp : Order → Order → Bool) (q : List Order) : List Order :=
  match pq_top cmp q with
  | none => q
  | some t => q.erase t

/-- The member `push` of `std::priority_queue`. -/
def pq_push (q : List Order) (o : Order) : List Order := o :: q

/-! ## Operations of `OrderBook` (`src/orderbook.cpp`) -/

/-- The constructor `OrderBook::OrderBook(symbol)`. -/
def OrderBook.new (symbol : String) : OrderBook :=
  { symbol_ := symbol, buys_ := [], sells_ := [], trades_executed_ := 0 }

/-- The operation `OrderBook::add_order`. -/
def OrderBook.add_order (s : OrderBook) (o : Order) : OrderBook :=
  if o.is_buy then { s with buys_ := pq_push s.buys_ o }
  else { s with sells_ := pq_push s.sells_ o }

/-- One evaluation of the `while` of `OrderBook::match`: `none` when the loop is left
(a side is empty, or the `break`), otherwise the book after the body. -/
def match_step (s : OrderBook) : Option OrderBook :=
  match pq_top BuyCmp s.buys_, pq_top SellCmp s.sells_ with
  | some buy, some sell =>
    if buy.price ≥ sell.price then
      let trade_qty := min buy.qty sell.qty
      let trades := (s.trades_executed_ + 1) % 2 ^ 64
      let buys := pq_pop BuyCmp s.buys_
      let sells := pq_pop SellCmp s.sells_
      let buy1 : Order := { buy with qty := buy.qty - trade_qty }
      let sell1 : Order := { sell with qty := sell.qty - trade_qty }
      let buys := if buy1.qty > 0 then pq_push buys buy1 else buys
      let sells := if sell1.qty > 0 then pq_push sells sell1 else sells
      some { s with buys_ := buys, sells_ := sells, trades_executed_ := trades }
    else none
  | _, _ => none

/-- The `while` of `OrderBook::match`, run for at most `fuel` iterations. -/
def match_loop : Nat → OrderBook → OrderBook
  | 0, s => s
  | fuel + 1, s =>
    match match_step s with
    | none => s
    | some s1 => match_loop fuel s1

/-- The operation `OrderBook::match`.  Every iteration that does not leave the loop
takes at least one order out of the book, so as many iterations as there are resting
orders are enough (`match_step_match_`, `match_loop_fuel`). -/
def OrderBook.match_ (s : OrderBook) : OrderBook :=
  match_loop (s.buys_.length + s.sells_.length) s

/-- The row `{o.price, o.qty, o.id}` that `snapshot_pq` pushes for the order `o`. -/
def Order.toRow (o : Order) : TopRow :=
  { price := o.price, qty := o.qty, earliest_order_id := o.id }

/-- The `while` of `OrderBook::snapshot_pq`, which works on its own copy `pq` of the queue.
The first argument is `n - rows.size()`, the number of rows still wanted. -/
def snapshot_loop (cmp : Order → Order → Bool) : Nat → List Order → List TopRow
  | 0, _ => []
  | n + 1, pq =>
    match pq_top cmp pq with
    | none => []
    | some o => o.toRow :: snapshot_loop cmp n (pq_pop cmp pq)

/-- The call `rows.reserve(n)` of `OrderBook::snapshot_pq`: `true` when it returns, `false`
when it throws, which is `std::length_error` for `n` above `max_size()` and
`std::bad_alloc` when the memory for `n` rows is not to be had.  `cap` is the largest `n`
for which the call goes through at the time of the call; it depends on the library and on
the memory of the machine and is an input of the model.  Whatever they are, `n` rows of 24
bytes each (`sizeof(TopRow)`: a `double` and two `uint64_t`) have to fit a 64-bit
`size_t`. -/
def reserve_ok (cap n : Nat) : Bool := decide (n ≤ cap) && decide (n * 24 < 2 ^ 64)

/-- The helper `OrderBook::snapshot_pq`: the rows it returns, `none` when `rows.reserve(n)`
throws. -/
def snapshot_pq (cap : Nat) (cmp : Order → Order → Bool) (n : Nat) (pq : List Order) :
    Option (List TopRow) :=
  if reserve_ok cap n then some (snapshot_loop cmp n pq) else none

/-- The operation `OrderBook::top_buys`, called when `rows.reserve` goes through up to
`cap`: the rows returned (`none` for an exception) and the book after the call.  The queue
is handed to `snapshot_pq` by value, so the book is the one before the call either way. -/
def OrderBook.top_buys (s : OrderBook) (cap n : Nat) : Option (List TopRow) × OrderBook :=
  (snapshot_pq cap BuyCmp n s.buys_, s)

/-- The operation `OrderBook::top_sells`, called when `rows.reserve` goes through up to
`cap`: the rows returned (`none` for an exception) and the book after the call. -/
def OrderBook.top_sells (s : OrderBook) (cap n : Nat) : Option (List TopRow) × OrderBook :=
  (snapshot_pq cap SellCmp n s.sells_, s)

/-- The operation `OrderBook::total_trades_executed`. -/
def OrderBook.total_trades_executed (s : OrderBook) : Nat := s.trades_executed_

/-- A call of a public operation of `OrderBook`; a snapshot call comes with the `cap` of
`reserve_ok` at the time of the call. -/
inductive Op where
  | add_order (o : Order)
  | match_
  | top_buys (cap n : Nat)
  | top_sells (cap n : Nat)
  | total_trades_executed
deriving DecidableEq

/-- The book after one call. -/
def Op.run (s : OrderBook) : Op → OrderBook
  | .add_order o => s.add_order o
  | .match_ => s.match_
  | .top_buys cap n => (s.top_buys cap n).2
  | .top_sells cap n => (s.top_sells cap n).2
  | .total_trades_executed => s

/-- The book after a sequence of calls, made one after the other. -/
def run_ops (s : OrderBook) (ops : List Op) : OrderBook := ops.foldl Op.run s

/-- The number of resting orders. -/
def OrderBook.size (s : OrderBook) : Nat := s.buys_.length + s.sells_.length

/-- The body of the loop, spelled out: the book after an iteration that trades. -/
def traded (s : OrderBook) (buy sell : Order) : OrderBook :=
  { s with
    buys_ := if buy.qty - min buy.qty sell.qty > 0
      then pq_push (pq_pop BuyCmp s.buys_) { buy with qty := buy.qty - min buy.qty sell.qty }
      else pq_pop BuyCmp s.buys_
    sells_ := if sell.qty - min buy.qty sell.qty > 0
      then pq_push (pq_pop SellCmp s.sells_) { sell with qty := sell.qty - min buy.qty sell.qty }
      else pq_pop SellCmp s.sells_
    trades_executed_ := (s.trades_executed_ + 1) % 2 ^ 64 }

/-- What the proofs use of a comparator: it is a strict weak order, and it looks at the
price and the id of an order only. -/
structure IsRanking (cmp : Order → Order → Bool) : Prop where
  irrefl : ∀ a, cmp a a = false
  asymm : ∀ a b, cmp a b = true → cmp b a = false
  negtrans : ∀ a b c, cmp a b = false → cmp b c = false → cmp a c = false
  congr_left : ∀ a b c, a.price = b.price → a.id = b.id → cmp a c = cmp b c
  congr_right : ∀ a b c, a.price = b.price → a.id = b.id → cmp c a = cmp c b

/-- How one side of the book during a call of `match()` (the queue `q`) stands to the same
side when the call started (`q0`): the ids stay pairwise distinct, every order is an order
of `q0` with a quantity that is not larger, and when an order of `q0` is no longer in the
queue as it was, no order of `q0` that ranked above it has anything left in the queue. -/
structure SideInv (cmp : Order → Order → Bool) (q0 q : List Order) : Prop where
  nodup : (q.map Order.id).Nodup
  origin : ∀ x ∈ q, ∃ y ∈ q0, x = { y with qty := x.qty } ∧ x.qty ≤ y.qty
  served : ∀ y ∈ q0, y ∉ q → ∀ z ∈ q0, cmp y z = true → ∀ w ∈ q, w.id ≠ z.id

/-- The number of iterations of the `while` of `OrderBook::match` that trade, that is the
number of times `trades_executed_++` runs, in at most `fuel` iterations. -/
def trade_events : Nat → OrderBook → Nat
  | 0, _ => 0
  | fuel + 1, s =>
    match match_step s with
    | none => 0
    | some s1 => trade_events fuel s1 + 1

/-- The number of trade events of one call of `OrderBook::match`. -/
def OrderBook.match_events (s : OrderBook) : Nat := trade_events s.size s

/-- The statement `trades_executed_++` on the 64-bit counter. -/
def bump (t : Nat) : Nat := (t + 1) % 2 ^ 64

/-- The number of `add_order` calls in a sequence of calls. -/
def count_adds : List Op → Nat
  | [] => 0
  | .add_order _ :: ops => count_adds ops + 1
  | _ :: ops => count_adds ops

/-- The ids of the orders handed to `add_order` in a sequence of calls. -/
def added_ids : List Op → List Nat
  | [] => []
  | .add_order o :: ops => o.id :: added_ids ops
  | _ :: ops => added_ids ops

/-- The total quantity resting in a queue. -/
def total_qty (q : List Order) : Nat := (q.map Order.qty).sum

/-- The order `x`, resting after a call, has a quantity different from the quantity of the
order of the same id in the queue `q0` of before the call. -/
def changed (q0 : List Order) (x : Order) : Prop :=
  ∃ y ∈ q0, y.id = x.id ∧ y.qty ≠ x.qty

/-- How the book `t` during a call of `match()` stands to the book `s0` of when the call
started: an order that is not in `s0` as it is now is the best order of its side, and at
most one side holds such an order. -/
structure OnePartial (s0 t : OrderBook) : Prop where
  buys_top : ∀ x ∈ t.buys_, x ∉ s0.buys_ → pq_top BuyCmp t.buys_ = some x
  sells_top : ∀ x ∈ t.sells_, x ∉ s0.sells_ → pq_top SellCmp t.sells_ = some x
  one_side : (∀ x ∈ t.buys_, x ∈ s0.buys_) ∨ (∀ x ∈ t.sells_, x ∈ s0.sells_)

/-! ## Example books -/

/-- A buy 100 x 30 and a sell 99 x 50 in a book whose trade counter holds the largest
64-bit value. -/
def ex_book_wrap : OrderBook :=
  { symbol_ := "ABC"
    buys_ := [⟨2, "Trader_2", true, 100, 30, 1⟩]
    sells_ := [⟨1, "Trader_1", false, 99, 50, 0⟩]
    trades_executed_ := 2 ^ 64 - 1 }

/-- The book of the matching example: a resting sell 99 x 50, then a buy 100 x 30. -/
def ex_book_pair : OrderBook :=
  ((OrderBook.new "ABC").add_order ⟨1, "Trader_1", false, 99, 50, 0⟩).add_order
    ⟨2, "Trader_2", true, 100, 30, 1⟩

/-- The book of the drain example: sells 98 x 10 and 99 x 10, then a buy 100 x 25. -/
def ex_book_drain : OrderBook :=
  (((OrderBook.new "ABC").add_order ⟨1, "Trader_1", false, 98, 10, 0⟩).add_order
    ⟨2, "Trader_2", false, 99, 10, 1⟩).add_order ⟨3, "Trader_3", true, 100, 25, 2⟩

/-- A sell 99 x 50 (id 1) and buys 100 x 30 (id 2), 99 x 40 (id 3) and 98 x 5 (id 4). -/
def ex_book_priority : OrderBook :=
  ((((OrderBook.new "ABC").add_order ⟨1, "Trader_1", false, 99, 50, 0⟩).add_order
    ⟨2, "Trader_2", true, 100, 30, 1⟩).add_order ⟨3, "Trader_3", true, 99, 40, 2⟩).add_order
    ⟨4, "Trader_4", true, 98, 5, 3⟩

/-- Five submissions: sell 99 x 50, buy 100 x 30, buy 98 x 5, sell 101 x 5, buy 100 x 7. -/
def ex_submissions : List Order :=
  [⟨1, "Trader_1", false, 99, 50, 0⟩, ⟨2, "Trader_2", true, 100, 30, 1⟩,
   ⟨3, "Trader_3", true, 98, 5, 2⟩, ⟨4, "Trader_4", false, 101, 5, 3⟩,
   ⟨5, "Trader_5", true, 100, 7, 4⟩]

/-- Two more calls: a sell 98 x 10 is added and a matching pass is run. -/
def ex_ops_more : List Op :=
  [.add_order ⟨5, "Trader_5", false, 98, 10, 4⟩, .match_]

/-- Calls that add four orders of positive quantity, with matching passes and snapshots
in between. -/
def ex_ops : List Op :=
  [.add_order ⟨1, "Trader_1", false, 99, 50, 0⟩, .match_, .add_order ⟨2, "Trader_2", true, 100, 30, 1⟩,
   .top_buys 64 3, .match_, .add_order ⟨3, "Trader_3", true, 99, 40, 2⟩, .match_,
   .add_order ⟨4, "Trader_4", false, 101, 7, 3⟩, .match_]

/-- A resting sell at price 99, quantity 50. -/
def ex_sell_99 : Order := ⟨1, "Trader_1", false, 99, 50, 0⟩

/-- A buy at price 100, quantity 30. -/
def ex_buy_100 : Order := ⟨2, "Trader_2", true, 100, 30, 1⟩

/-- A buy at price 98, quantity 5. -/
def ex_buy_98 : Order := ⟨3, "Trader_3", true, 98, 5, 2⟩

/-- A sell at price 101, quantity 5. -/
def ex_sell_101 : Order := ⟨4, "Trader_4", false, 101, 5, 3⟩

/-- A book with two buys and two sells of which one pair crosses. -/
def ex_book_crossed : OrderBook :=
  ((((OrderBook.new "ABC").add_order ex_sell_99).add_order ex_buy_100).add_order
    ex_buy_98).add_order ex_sell_101

/-- A buy at price 99 and a sell at price 100: nothing crosses. -/
def ex_book_apart : OrderBook :=
  ((OrderBook.new "ABC").add_order ⟨1, "Trader_1", true, 99, 10, 0⟩).add_order
    ⟨2, "Trader_2", false, 100, 10, 1⟩

/-! ## The two rankings -/

theorem BuyCmp_eq_true (a b : Order) :
    BuyCmp a b = true ↔ a.price < b.price ∨ (a.price = b.price ∧ b.id < a.id) := by
  unfold BuyCmp
  by_cases h : a.price = b.price
  · simp [h]
  · simp only [ne_eq, h, not_false_eq_true, if_true, decide_eq_true_eq, false_and, or_false]

theorem BuyCmp_eq_false (a b : Order) :
    BuyCmp a b = false ↔ b.price < a.price ∨ (a.price = b.price ∧ a.id ≤ b.id) := by
  rw [← Bool.not_eq_true, BuyCmp_eq_true]
  constructor
  · intro h
    rcases lt_trichotomy a.price b.price with h1 | h1 | h1
    · exact absurd (Or.inl h1) h
    · exact Or.inr ⟨h1, Nat.le_of_not_lt fun h2 => h (Or.inr ⟨h1, h2⟩)⟩
    · exact Or.inl h1
  · rintro (h | ⟨h1, h2⟩) (h3 | ⟨h3, h4⟩)
    · exact lt_asymm h h3
    · rw [h3] at h; exact lt_irrefl _ h
    · rw [h1] at h3; exact lt_irrefl _ h3
    · omega

theorem SellCmp_eq_true (a b : Order) :
    SellCmp a b = true ↔ b.price < a.price ∨ (a.price = b.price ∧ b.id < a.id) := by
  unfold SellCmp
  by_cases h : a.price = b.price
  · simp [h]
  · simp only [ne_eq, h, not_false_eq_true, if_true, decide_eq_true_eq, false_and, or_false,
      gt_iff_lt]

theorem SellCmp_eq_false (a b : Order) :
    SellCmp a b = false ↔ a.price < b.price ∨ (a.price = b.price ∧ a.id ≤ b.id) := by
  rw [← Bool.not_eq_true, SellCmp_eq_true]
  constructor
  · intro h
    rcases lt_trichotomy a.price b.price with h1 | h1 | h1
    · exact Or.inl h1
    · exact Or.inr ⟨h1, Nat.le_of_not_lt fun h2 => h (Or.inr ⟨h1, h2⟩)⟩
    · exact absurd (Or.inl h1) h
  · rintro (h | ⟨h1, h2⟩) (h3 | ⟨h3, h4⟩)
    · exact lt_asymm h h3
    · rw [h3] at h; exact lt_irrefl _ h
    · rw [h1] at h3; exact lt_irrefl _ h3
    · omega

theorem BuyCmp_isRanking : IsRanking BuyCmp where
  irrefl a := by rw [BuyCmp_eq_false]; exact Or.inr ⟨rfl, le_refl _⟩
  asymm a b h := by
    rw [BuyCmp_eq_true] at h
    rw [BuyCmp_eq_false]
    rcases h with h | ⟨h1, h2⟩
    · exact Or.inl h
    · exact Or.inr ⟨h1.symm, Nat.le_of_lt h2⟩
  negtrans a b c h1 h2 := by
    rw [BuyCmp_eq_false] at *
    rcases h1 with h1 | ⟨h1, h3⟩ <;> rcases h2 with h2 | ⟨h2, h4⟩
    · exact Or.inl (lt_trans h2 h1)
    · exact Or.inl (h2 ▸ h1)
    · exact Or.inl (h1 ▸ h2)
    · exact Or.inr ⟨h1.trans h2, le_trans h3 h4⟩
  congr_left a b c hp hi := by unfold BuyCmp; rw [hp, hi]
  congr_right a b c hp hi := by unfold BuyCmp; rw [hp, hi]

theorem SellCmp_isRanking : IsRanking SellCmp where
  irrefl a := by rw [SellCmp_eq_false]; exact Or.inr ⟨rfl, le_refl _⟩
  asymm a b h := by
    rw [SellCmp_eq_true] at h
    rw [SellCmp_eq_false]
    rcases h with h | ⟨h1, h2⟩
    · exact Or.inl h
    · exact Or.inr ⟨h1.symm, Nat.le_of_lt h2⟩
  negtrans a b c h1 h2 := by
    rw [SellCmp_eq_false] at *
    rcases h1 with h1 | ⟨h1, h3⟩ <;> rcases h2 with h2 | ⟨h2, h4⟩
    · exact Or.inl (lt_trans h1 h2)
    · exact Or.inl (h2 ▸ h1)
    · exact Or.inl (h1 ▸ h2)
    · exact Or.inr ⟨h1.trans h2, le_trans h3 h4⟩
  congr_left a b c hp hi := by unfold SellCmp; rw [hp, hi]
  congr_right a b c hp hi := by unfold SellCmp; rw [hp, hi]

/-! ## Facts about the priority queue -/

theorem pq_top_eq_none {cmp : Order → Order → Bool} {q : List Order} :
    pq_top cmp q = none ↔ q = [] := by
  cases q with
  | nil => simp [pq_top]
  | cons x xs =>
    simp only [pq_top, reduceCtorEq, iff_false]
    cases pq_top cmp xs with
    | none => simp
    | some m => by_cases h : cmp x m = true <;> simp [h]

theorem pq_top_mem {cmp : Order → Order → Bool} {q : List Order} {t : Order}
    (h : pq_top cmp q = some t) : t ∈ q := by
  induction q generalizing t with
  | nil => simp [pq_top] at h
  | cons x xs ih =>
    simp only [pq_top] at h
    cases hm : pq_top cmp xs with
    | none => rw [hm] at h; simp at h; simp [h]
    | some m =>
      rw [hm] at h
      by_cases hc : cmp x m = true
      · simp [hc] at h; subst h; exact List.mem_cons_of_mem _ (ih hm)
      · simp [hc] at h; simp [h]

theorem pq_top_max {cmp : Order → Order → Bool} (hc : IsRanking cmp) {q : List Order}
    {t : Order} (h : pq_top cmp q = some t) : ∀ y ∈ q, cmp t y = false := by
  induction q generalizing t with
  | nil => simp [pq_top] at h
  | cons x xs ih =>
    simp only [pq_top] at h
    cases hm : pq_top cmp xs with
    | none =>
      rw [hm] at h
      simp only [Option.some.injEq] at h
      subst h
      rw [pq_top_eq_none] at hm
      subst hm
      intro y hy
      simp only [List.mem_singleton] at hy
      subst hy
      exact hc.irrefl _
    | some m =>
      rw [hm] at h
      by_cases hxm : cmp x m = true
      · simp only [hxm, if_true, Option.some.injEq] at h
        subst h
        intro y hy
        rcases List.mem_cons.mp hy with rfl | hy
        · exact hc.asymm _ _ hxm
        · exact ih hm y hy
      · simp only [hxm, Bool.false_eq_true, if_false, Option.some.injEq] at h
        subst h
        intro y hy
        rcases List.mem_cons.mp hy with rfl | hy
        · exact hc.irrefl _
        · exact hc.negtrans _ _ _ (by simpa using hxm) (ih hm y hy)

theorem pq_pop_perm {cmp : Order → Order → Bool} {q : List Order} {t : Order}
    (h : pq_top cmp q = some t) : q.Perm (t :: pq_pop cmp q) := by
  unfold pq_pop
  rw [h]
  exact List.perm_cons_erase (pq_top_mem h)

theorem pq_pop_length {cmp : Order → Order → Bool} {q : List Order} {t : Order}
    (h : pq_top cmp q = some t) : (pq_pop cmp q).length + 1 = q.length := by
  have := (pq_pop_perm h).length_eq
  simp only [List.length_cons] at this
  omega

theorem pq_pop_subset {cmp : Order → Order → Bool} {q : List Order} {x : Order}
    (h : x ∈ pq_pop cmp q) : x ∈ q := by
  unfold pq_pop at h
  cases ht : pq_top cmp q with
  | none => rw [ht] at h; exact h
  | some t => rw [ht] at h; exact List.mem_of_mem_erase h

/-- The subtraction `qty -= trade_qty` of `OrderBook::match` never wraps: on 64-bit values
the machine subtraction and the subtraction of `Nat` give the same number. -/
theorem qty_sub_no_wrap (a b : Nat) (ha : a < 2 ^ 64) :
    (a + 2 ^ 64 - min a b) % 2 ^ 64 = a - min a b := by
  have h : min a b ≤ a := Nat.min_le_left a b
  have h2 : a + 2 ^ 64 - min a b = (a - min a b) + 2 ^ 64 := by omega
  rw [h2, Nat.add_mod_right, Nat.mod_eq_of_lt]
  omega

/-! ## The matching loop -/

theorem match_step_eq_some {s s1 : OrderBook} :
    match_step s = some s1 ↔
      ∃ buy sell, pq_top BuyCmp s.buys_ = some buy ∧ pq_top SellCmp s.sells_ = some sell ∧
        sell.price ≤ buy.price ∧ s1 = traded s buy sell := by
  unfold match_step
  cases hb : pq_top BuyCmp s.buys_ with
  | none => simp
  | some buy =>
    cases ha : pq_top SellCmp s.sells_ with
    | none => simp
    | some sell =>
      by_cases hp : sell.price ≤ buy.price
      · simp only [ge_iff_le, hp, if_true, Option.some.injEq, exists_and_left, true_and,
          exists_eq_left']
        constructor
        · intro h; exact h.symm
        · intro h; exact h.symm
      · simp [hp]

theorem match_step_eq_none {s : OrderBook} :
    match_step s = none ↔
      s.buys_ = [] ∨ s.sells_ = [] ∨
        ∃ buy sell, pq_top BuyCmp s.buys_ = some buy ∧ pq_top SellCmp s.sells_ = some sell ∧
          buy.price < sell.price := by
  unfold match_step
  cases hb : pq_top BuyCmp s.buys_ with
  | none => simp [pq_top_eq_none.mp hb]
  | some buy =>
    have hb1 : s.buys_ ≠ [] := fun h => by rw [h] at hb; simp [pq_top] at hb
    cases ha : pq_top SellCmp s.sells_ with
    | none => simp [pq_top_eq_none.mp ha]
    | some sell =>
      have ha1 : s.sells_ ≠ [] := fun h => by rw [h] at ha; simp [pq_top] at ha
      by_cases hp : sell.price ≤ buy.price
      · simp [hp, hb1, ha1]
      · simp [hp, hb1, ha1, lt_of_not_le hp]

/-- Every trading iteration takes at least one order out of the book. -/
theorem match_step_size {s s1 : OrderBook} (h : match_step s = some s1) :
    s1.size + 1 ≤ s.size := by
  obtain ⟨buy, sell, hb, ha, -, rfl⟩ := match_step_eq_some.mp h
  have lb := pq_pop_length hb
  have la := pq_pop_length ha
  simp only [OrderBook.size, traded, pq_push]
  rcases Nat.le_total buy.qty sell.qty with hq | hq
  · have h0 : ¬ (buy.qty - min buy.qty sell.qty > 0) := by
      rw [Nat.min_eq_left hq]; omega
    rw [if_neg h0]
    split <;> simp <;> omega
  · have h0 : ¬ (sell.qty - min buy.qty sell.qty > 0) := by
      rw [Nat.min_eq_right hq]; omega
    rw [if_neg h0]
    split <;> simp <;> omega

theorem match_loop_of_none {s : OrderBook} (h : match_step s = none) (fuel : Nat) :
    match_loop fuel s = s := by
  cases fuel with
  | zero => rfl
  | succ n => simp [match_loop, h]

/-- With as much fuel as there are resting orders the loop has left by itself: the book
it returns is one on which the loop condition fails or the `break` is taken. -/
theorem match_loop_quiescent (fuel : Nat) (s : OrderBook) (h : s.size ≤ fuel) :
    match_step (match_loop fuel s) = none := by
  induction fuel generalizing s with
  | zero =>
    simp only [match_loop]
    rw [match_step_eq_none]
    left
    simp only [OrderBook.size] at h
    exact List.length_eq_zero.mp (by omega)
  | succ n ih =>
    simp only [match_loop]
    cases hs : match_step s with
    | none => exact hs
    | some s1 =>
      have := match_step_size hs
      exact ih s1 (by omega)

theorem match_loop_congr (n : Nat) : ∀ (m : Nat) (s : OrderBook), s.size ≤ n → s.size ≤ m →
    match_loop n s = match_loop m s := by
  induction n with
  | zero =>
    intro m s h _
    have h0 : s.buys_ = [] := by
      simp only [OrderBook.size] at h
      exact List.length_eq_zero.mp (by omega)
    have hs : match_step s = none := match_step_eq_none.mpr (Or.inl h0)
    rw [match_loop_of_none hs, match_loop_of_none hs]
  | succ n ih =>
    intro m s hn hm
    cases hs : match_step s with
    | none => rw [match_loop_of_none hs, match_loop_of_none hs]
    | some s1 =>
      have hsz := match_step_size hs
      obtain ⟨m1, rfl⟩ : ∃ m1, m = m1 + 1 := ⟨m - 1, by omega⟩
      simp only [match_loop, hs]
      exact ih m1 s1 (by omega) (by omega)

/-- More fuel than the number of resting orders changes nothing. -/
theorem match_loop_fuel (fuel : Nat) (s : OrderBook) (h : s.size ≤ fuel) :
    match_loop fuel s = s.match_ :=
  match_loop_congr fuel s.size s h (le_refl _)

theorem match_step_match_ (s : OrderBook) : match_step s.match_ = none :=
  match_loop_quiescent _ s (le_refl _)

/-- Unfolding of `OrderBook.match_` along one iteration. -/
theorem match_unfold {s s1 : OrderBook} (h : match_step s = some s1) :
    s.match_ = s1.match_ := by
  have hsz := match_step_size h
  rw [← match_loop_fuel s.size s (le_refl _)]
  have : s.size = (s.size - 1) + 1 := by omega
  rw [this]
  simp only [match_loop, h]
  exact match_loop_fuel _ s1 (by omega)

theorem match_of_none {s : OrderBook} (h : match_step s = none) : s.match_ = s :=
  match_loop_of_none h _

/-- Induction along the iterations of one call of `OrderBook::match`. -/
theorem match_induct (P : OrderBook → Prop)
    (hstep : ∀ s s1, P s → match_step s = some s1 → P s1) :
    ∀ (fuel : Nat) (s : OrderBook), P s → P (match_loop fuel s) := by
  intro fuel
  induction fuel with
  | zero => intro s hs; exact hs
  | succ n ih =>
    intro s hs
    simp only [match_loop]
    cases h : match_step s with
    | none => exact hs
    | some s1 => exact ih s1 (hstep s s1 hs h)

/-- When the best bid is priced below the best ask, every bid is priced below every ask. -/
theorem uncrossed_of_best {bids asks : List Order} {bb ba : Order}
    (hb : pq_top BuyCmp bids = some bb) (ha : pq_top SellCmp asks = some ba)
    (hlt : bb.price < ba.price) : ∀ b ∈ bids, ∀ a ∈ asks, b.price < a.price := by
  intro b hbm a ham
  have h1 : b.price ≤ bb.price := by
    rcases (BuyCmp_eq_false bb b).mp (pq_top_max BuyCmp_isRanking hb b hbm) with h | ⟨h, -⟩
    · exact le_of_lt h
    · exact le_of_eq h.symm
  have h2 : ba.price ≤ a.price := by
    rcases (SellCmp_eq_false ba a).mp (pq_top_max SellCmp_isRanking ha a ham) with h | ⟨h, -⟩
    · exact le_of_lt h
    · exact le_of_eq h
  exact lt_of_le_of_lt h1 (lt_of_lt_of_le hlt h2)

/-- A book on which the loop stops at once has no crossing pair. -/
theorem uncrossed_of_step_none {s : OrderBook} (h : match_step s = none) :
    ∀ b ∈ s.buys_, ∀ a ∈ s.sells_, b.price < a.price := by
  rcases match_step_eq_none.mp h with h | h | ⟨bb, ba, hb, ha, hlt⟩
  · intro b hb; rw [h] at hb; simp at hb
  · intro b _ a ha; rw [h] at ha; simp at ha
  · exact uncrossed_of_best hb ha hlt

/-- The loop started on one buy `b` and sells that are all priced at or below `b` and add
up to less than the quantity of `b`: one iteration per sell, every sell is consumed, and
`b` rests with what is left.  The counter is bumped once per iteration. -/
theorem match_drains_asks (k : Nat) : ∀ (s : OrderBook) (b : Order), s.buys_ = [b] →
    s.sells_.length = k → (∀ a ∈ s.sells_, a.price ≤ b.price) →
    (s.sells_.map Order.qty).sum < b.qty →
    s.match_ = { s with
      buys_ := [{ b with qty := b.qty - (s.sells_.map Order.qty).sum }]
      sells_ := []
      trades_executed_ := (fun t => (t + 1) % 2 ^ 64)^[k] s.trades_executed_ } := by
  induction k with
  | zero =>
    intro s b hb hlen _ _
    have hs : s.sells_ = [] := List.length_eq_zero.mp hlen
    rw [match_of_none (match_step_eq_none.mpr (Or.inr (Or.inl hs)))]
    cases s
    simp_all
  | succ k ih =>
    intro s b hb hlen hprice hsum
    obtain ⟨a, ha⟩ : ∃ a, pq_top SellCmp s.sells_ = some a := by
      cases h : pq_top SellCmp s.sells_ with
      | none => rw [pq_top_eq_none.mp h] at hlen; simp at hlen
      | some a => exact ⟨a, rfl⟩
    have ham : a ∈ s.sells_ := pq_top_mem ha
    have hbt : pq_top BuyCmp s.buys_ = some b := by rw [hb]; simp [pq_top]
    have hstep : match_step s = some (traded s b a) :=
      match_step_eq_some.mpr ⟨b, a, hbt, ha, hprice a ham, rfl⟩
    have herase : a.qty + ((s.sells_.erase a).map Order.qty).sum = (s.sells_.map Order.qty).sum :=
      List.sum_map_erase Order.qty ham
    have hmin : min b.qty a.qty = a.qty := Nat.min_eq_right (by omega)
    have hpopb : pq_pop BuyCmp s.buys_ = [] := by
      unfold pq_pop; rw [hbt, hb]; simp
    have hpopa : pq_pop SellCmp s.sells_ = s.sells_.erase a := by
      unfold pq_pop; rw [ha]
    have htr : traded s b a =
        { s with
          buys_ := [{ b with qty := b.qty - a.qty }]
          sells_ := s.sells_.erase a
          trades_executed_ := (s.trades_executed_ + 1) % 2 ^ 64 } := by
      have h1 : b.qty - a.qty > 0 := by omega
      simp only [traded, hmin, hpopb, hpopa, pq_push, h1, if_true, Nat.sub_self, gt_iff_lt,
        Nat.lt_irrefl, if_false]
    rw [match_unfold hstep, htr]
    have hlen1 : (s.sells_.erase a).length = k := by
      rw [List.length_erase_of_mem ham, hlen]; rfl
    rw [ih _ { b with qty := b.qty - a.qty } rfl hlen1
      (fun x hx => hprice x (List.mem_of_mem_erase hx)) (by simp only; omega)]
    have hq : b.qty - a.qty - ((s.sells_.erase a).map Order.qty).sum
        = b.qty - (s.sells_.map Order.qty).sum := by omega
    simp only [hq, Function.iterate_succ_apply]

/-- Bumping a 64-bit counter `k` times, `k` at least one. -/
theorem iterate_bump (k t : Nat) :
    (fun t => (t + 1) % 2 ^ 64)^[k + 1] t = (t + (k + 1)) % 2 ^ 64 := by
  induction k generalizing t with
  | zero => simp
  | succ k ih =>
    rw [Function.iterate_succ_apply, ih]
    simp only [Nat.mod_add_mod]
    congr 1
    omega

/-- One iteration of the loop keeps every resting quantity positive. -/
theorem match_step_pos {s s1 : OrderBook} (h : match_step s = some s1)
    (hpos : ∀ x ∈ s.buys_ ++ s.sells_, 0 < x.qty) : ∀ x ∈ s1.buys_ ++ s1.sells_, 0 < x.qty := by
  obtain ⟨buy, sell, -, -, -, rfl⟩ := match_step_eq_some.mp h
  intro x hx
  simp only [traded, pq_push, List.mem_append] at hx
  rcases hx with hx | hx
  · split at hx
    · rcases List.mem_cons.mp hx with rfl | hx
      · assumption
      · exact hpos x (List.mem_append_left _ (pq_pop_subset hx))
    · exact hpos x (List.mem_append_left _ (pq_pop_subset hx))
  · split at hx
    · rcases List.mem_cons.mp hx with rfl | hx
      · assumption
      · exact hpos x (List.mem_append_right _ (pq_pop_subset hx))
    · exact hpos x (List.mem_append_right _ (pq_pop_subset hx))

/-- One call of `match()` keeps every resting quantity positive. -/
theorem match_pos (s : OrderBook) (hpos : ∀ x ∈ s.buys_ ++ s.sells_, 0 < x.qty) :
    ∀ x ∈ s.match_.buys_ ++ s.match_.sells_, 0 < x.qty :=
  match_induct (fun t => ∀ x ∈ t.buys_ ++ t.sells_, 0 < x.qty)
    (fun _ _ hs h => match_step_pos h hs) _ s hpos

/-! ## Price-time priority along the loop -/

theorem SideInv.start (cmp : Order → Order → Bool) {q0 : List Order}
    (h : (q0.map Order.id).Nodup) : SideInv cmp q0 q0 where
  nodup := h
  origin x hx := ⟨x, hx, rfl, le_refl _⟩
  served _ hy hn := absurd hy hn

/-- Taking the best order out of a queue, and putting it back or not with a quantity that
is not larger, keeps `SideInv`. -/
theorem SideInv.serve {cmp : Order → Order → Bool} (hc : IsRanking cmp) {q0 q : List Order}
    (h0 : (q0.map Order.id).Nodup) (inv : SideInv cmp q0 q) {t : Order}
    (ht : pq_top cmp q = some t) (k : Nat) (hk : k ≤ t.qty) (q1 : List Order)
    (hq1 : q1 = pq_pop cmp q ∨ q1 = pq_push (pq_pop cmp q) { t with qty := k }) :
    SideInv cmp q0 q1 := by
  have hperm : q.Perm (t :: pq_pop cmp q) := pq_pop_perm ht
  have htm : t ∈ q := pq_top_mem ht
  have hnd : (t.id :: (pq_pop cmp q).map Order.id).Nodup := by
    have := ((hperm.map Order.id).nodup_iff).mp inv.nodup
    simpa using this
  -- every order of `q1` has the id and the price of an order of `q`
  have hback : ∀ w ∈ q1, ∃ v ∈ q, v.id = w.id ∧ v.price = w.price := by
    intro w hw
    rcases hq1 with rfl | rfl
    · exact ⟨w, pq_pop_subset hw, rfl, rfl⟩
    · rcases List.mem_cons.mp hw with rfl | hw
      · exact ⟨t, htm, rfl, rfl⟩
      · exact ⟨w, pq_pop_subset hw, rfl, rfl⟩
  have hpop : ∀ w ∈ pq_pop cmp q, w ∈ q1 := by
    intro w hw
    rcases hq1 with rfl | rfl
    · exact hw
    · exact List.mem_cons_of_mem _ hw
  refine ⟨?_, ?_, ?_⟩
  · rcases hq1 with rfl | rfl
    · exact hnd.of_cons
    · simpa [pq_push] using hnd
  · intro x hx
    rcases hq1 with rfl | rfl
    · exact inv.origin x (pq_pop_subset hx)
    · rcases List.mem_cons.mp hx with rfl | hx
      · obtain ⟨y, hy, hty, hle⟩ := inv.origin t htm
        refine ⟨y, hy, ?_, le_trans hk hle⟩
        rw [hty]
      · exact inv.origin x (pq_pop_subset hx)
  · intro y hy hyn z hz hcmp w hw hid
    obtain ⟨v, hv, hvid, hvp⟩ := hback w hw
    by_cases hyq : y ∈ q
    · have hyt : y = t := by
        by_contra hne
        have : y ∈ pq_pop cmp q := by
          unfold pq_pop
          rw [ht]
          exact (List.mem_erase_of_ne hne).mpr hyq
        exact hyn (hpop y this)
      subst hyt
      obtain ⟨u, hu, hvu, -⟩ := inv.origin v hv
      have huid : u.id = z.id := by rw [← hid, ← hvid, hvu]
      have huz : u = z := List.inj_on_of_nodup_map h0 hu hz huid
      have hvz : v.price = z.price := by rw [← huz, hvu]
      have h1 : cmp y v = cmp y z := hc.congr_right v z y hvz (hvid.trans hid)
      have h2 : cmp y v = false := pq_top_max hc ht v hv
      rw [h1, hcmp] at h2
      exact Bool.noConfusion h2
    · exact inv.served y hy hyq z hz hcmp v hv (hvid.trans hid)

/-- Both sides keep `SideInv` along one call of `match()`. -/
theorem match_sideInv (s : OrderBook) (hb : (s.buys_.map Order.id).Nodup)
    (ha : (s.sells_.map Order.id).Nodup) :
    SideInv BuyCmp s.buys_ s.match_.buys_ ∧ SideInv SellCmp s.sells_ s.match_.sells_ := by
  refine match_induct
    (fun t => SideInv BuyCmp s.buys_ t.buys_ ∧ SideInv SellCmp s.sells_ t.sells_)
    ?_ _ s ⟨SideInv.start BuyCmp hb, SideInv.start SellCmp ha⟩
  rintro t t1 ⟨ib, ia⟩ hstep
  obtain ⟨buy, sell, hbt, hat, -, rfl⟩ := match_step_eq_some.mp hstep
  constructor
  · refine SideInv.serve BuyCmp_isRanking hb ib hbt (buy.qty - min buy.qty sell.qty)
      (Nat.sub_le _ _) _ ?_
    simp only [traded]
    split
    · exact Or.inr rfl
    · exact Or.inl rfl
  · refine SideInv.serve SellCmp_isRanking ha ia hat (sell.qty - min buy.qty sell.qty)
      (Nat.sub_le _ _) _ ?_
    simp only [traded]
    split
    · exact Or.inr rfl
    · exact Or.inl rfl

/-- An order that `match()` removed, or whose quantity it reduced, is no longer in the
queue as it was. -/
theorem SideInv.not_mem_of_touched {cmp : Order → Order → Bool} {q0 q : List Order}
    (inv : SideInv cmp q0 q) (b : Order)
    (h : (∀ x ∈ q, x.id ≠ b.id) ∨ (∃ x ∈ q, x.id = b.id ∧ x.qty < b.qty)) : b ∉ q := by
  intro hb
  rcases h with h | ⟨x, hx, hid, hlt⟩
  · exact h b hb rfl
  · have : x = b := List.inj_on_of_nodup_map inv.nodup hx hb hid
    rw [this] at hlt
    exact lt_irrefl _ hlt

/-! ## Counting trade events and quantities -/

theorem trade_events_of_none {s : OrderBook} (h : match_step s = none) (fuel : Nat) :
    trade_events fuel s = 0 := by
  cases fuel with
  | zero => rfl
  | succ n => simp [trade_events, h]

/-- The counter after the loop is the counter before it, bumped once per trade event. -/
theorem match_loop_counter (fuel : Nat) : ∀ s : OrderBook,
    (match_loop fuel s).trades_executed_ = bump^[trade_events fuel s] s.trades_executed_ := by
  induction fuel with
  | zero => intro s; rfl
  | succ n ih =>
    intro s
    cases h : match_step s with
    | none => simp [match_loop, trade_events, h]
    | some s1 =>
      simp only [match_loop, trade_events, h, Function.iterate_succ_apply]
      rw [ih s1]
      obtain ⟨buy, sell, -, -, -, rfl⟩ := match_step_eq_some.mp h
      rfl

/-- Every trade event takes an order out of the book. -/
theorem match_loop_size (fuel : Nat) : ∀ s : OrderBook,
    (match_loop fuel s).size + trade_events fuel s ≤ s.size := by
  induction fuel with
  | zero => intro s; simp [match_loop, trade_events]
  | succ n ih =>
    intro s
    cases h : match_step s with
    | none => simp [match_loop, trade_events, h]
    | some s1 =>
      simp only [match_loop, trade_events, h]
      have h1 := ih s1
      have h2 := match_step_size h
      omega

/-- While the loop trades, the trade events still to come are fewer than the resting
orders. -/
theorem trade_events_lt_size (fuel : Nat) : ∀ s : OrderBook, s.buys_ ≠ [] → s.sells_ ≠ [] →
    trade_events fuel s + 1 ≤ s.size := by
  induction fuel with
  | zero =>
    intro s hb ha
    have h1 := List.length_pos.mpr hb
    have h2 := List.length_pos.mpr ha
    simp only [trade_events, OrderBook.size]
    omega
  | succ n ih =>
    intro s hb ha
    have h1 := List.length_pos.mpr hb
    have h2 := List.length_pos.mpr ha
    cases h : match_step s with
    | none =>
      simp only [trade_events, h, OrderBook.size]
      omega
    | some s1 =>
      simp only [trade_events, h]
      have hsz := match_step_size h
      by_cases hb1 : s1.buys_ = []
      · rw [trade_events_of_none (match_step_eq_none.mpr (Or.inl hb1))]
        simp only [OrderBook.size]
        omega
      · by_cases ha1 : s1.sells_ = []
        · rw [trade_events_of_none (match_step_eq_none.mpr (Or.inr (Or.inl ha1)))]
          simp only [OrderBook.size]
          omega
        · have := ih s1 hb1 ha1
          omega

/-- Bumping a 64-bit counter `e` times without reaching `2 ^ 64` adds `e`. -/
theorem iterate_bump_no_wrap (e t : Nat) (h : t + e < 2 ^ 64) : bump^[e] t = t + e := by
  induction e generalizing t with
  | zero => rfl
  | succ e ih =>
    rw [Function.iterate_succ_apply]
    have hb : bump t = t + 1 := by
      unfold bump
      exact Nat.mod_eq_of_lt (by omega)
    rw [hb, ih (t + 1) (by omega)]
    omega

/-- Serving the best order of a queue for `k` units takes `k` units out of the queue. -/
theorem total_qty_serve {cmp : Order → Order → Bool} {q : List Order} {t : Order}
    (ht : pq_top cmp q = some t) (k : Nat) (hk : k ≤ t.qty) :
    total_qty (if t.qty - k > 0 then pq_push (pq_pop cmp q) { t with qty := t.qty - k }
      else pq_pop cmp q) + k = total_qty q := by
  have hperm : (q.map Order.qty).Perm ((t :: pq_pop cmp q).map Order.qty) :=
    (pq_pop_perm ht).map Order.qty
  have hsum : total_qty q = t.qty + total_qty (pq_pop cmp q) := by
    unfold total_qty
    rw [hperm.sum_eq]
    simp
  rw [hsum]
  split
  · simp only [total_qty, pq_push, List.map_cons, List.sum_cons]
    omega
  · omega

/-- One trading iteration takes the same quantity, the minimum of the two best quantities,
out of each side. -/
theorem match_step_qty {s s1 : OrderBook} (h : match_step s = some s1) :
    ∃ trade_qty, total_qty s1.buys_ + trade_qty = total_qty s.buys_ ∧
      total_qty s1.sells_ + trade_qty = total_qty s.sells_ := by
  obtain ⟨buy, sell, hb, ha, -, rfl⟩ := match_step_eq_some.mp h
  exact ⟨min buy.qty sell.qty, total_qty_serve hb _ (Nat.min_le_left _ _),
    total_qty_serve ha _ (Nat.min_le_right _ _)⟩

/-- One call of `match()` takes the same quantity out of each side. -/
theorem match_qty (s : OrderBook) :
    ∃ d, total_qty s.match_.buys_ + d = total_qty s.buys_ ∧
      total_qty s.match_.sells_ + d = total_qty s.sells_ := by
  refine match_induct
    (fun t => ∃ d, total_qty t.buys_ + d = total_qty s.buys_ ∧
      total_qty t.sells_ + d = total_qty s.sells_) ?_ _ s ⟨0, rfl, rfl⟩
  rintro t t1 ⟨d, h1, h2⟩ hstep
  obtain ⟨q, h3, h4⟩ := match_step_qty hstep
  exact ⟨d + q, by omega, by omega⟩

/-- While the counter and the resting orders together do not exceed `2 ^ 64`, one call of
`match()` does not wrap the counter: it does not lower it, and it does not raise the sum of
the counter and the number of resting orders. -/
theorem match_counter_le (s : OrderBook) (h : s.trades_executed_ + s.size ≤ 2 ^ 64) :
    s.trades_executed_ ≤ s.match_.trades_executed_ ∧
    s.match_.trades_executed_ + s.match_.size ≤ s.trades_executed_ + s.size := by
  have h1 : s.match_.trades_executed_ = bump^[trade_events s.size s] s.trades_executed_ :=
    match_loop_counter s.size s
  have h2 : s.match_.size + trade_events s.size s ≤ s.size := match_loop_size s.size s
  by_cases hn : match_step s = none
  · rw [match_of_none hn]
    exact ⟨le_refl _, le_refl _⟩
  · have hb : s.buys_ ≠ [] := fun hb => hn (match_step_eq_none.mpr (Or.inl hb))
    have ha : s.sells_ ≠ [] := fun ha => hn (match_step_eq_none.mpr (Or.inr (Or.inl ha)))
    have h3 := trade_events_lt_size s.size s hb ha
    rw [iterate_bump_no_wrap _ _ (by omega)] at h1
    omega

theorem count_adds_append (ops more : List Op) :
    count_adds (ops ++ more) = count_adds ops + count_adds more := by
  induction ops with
  | nil => simp [count_adds]
  | cons op ops ih =>
    have e : (op :: ops) ++ more = op :: (ops ++ more) := rfl
    rw [e]
    cases op <;> simp only [count_adds, ih]
    omega

/-- While the counter, the resting orders and the `add_order` calls to come together do not
exceed `2 ^ 64`, a sequence of calls does not lower the counter, and the counter and the
resting orders after it are bounded by the same sum. -/
theorem run_ops_counter (ops : List Op) : ∀ s : OrderBook,
    s.trades_executed_ + s.size + count_adds ops ≤ 2 ^ 64 →
    s.trades_executed_ ≤ (run_ops s ops).trades_executed_ ∧
    (run_ops s ops).trades_executed_ + (run_ops s ops).size
      ≤ s.trades_executed_ + s.size + count_adds ops := by
  induction ops with
  | nil => intro s _; exact ⟨le_refl _, le_refl _⟩
  | cons op ops ih =>
    intro s h
    show s.trades_executed_ ≤ (run_ops (Op.run s op) ops).trades_executed_ ∧
      (run_ops (Op.run s op) ops).trades_executed_ + (run_ops (Op.run s op) ops).size
        ≤ s.trades_executed_ + s.size + count_adds (op :: ops)
    cases op with
    | add_order o =>
      simp only [count_adds] at h ⊢
      have ht : (s.add_order o).trades_executed_ = s.trades_executed_ := by
        unfold OrderBook.add_order; split <;> rfl
      have hsz : (s.add_order o).size = s.size + 1 := by
        unfold OrderBook.add_order
        split <;> simp only [OrderBook.size, pq_push, List.length_cons] <;> omega
      obtain ⟨h1, h2⟩ := ih (s.add_order o) (by omega)
      simp only [Op.run]
      omega
    | match_ =>
      simp only [count_adds] at h ⊢
      obtain ⟨h1, h2⟩ := match_counter_le s (by omega)
      obtain ⟨h3, h4⟩ := ih s.match_ (by omega)
      simp only [Op.run]
      omega
    | top_buys cap n => simpa [count_adds] using ih s (by simpa [count_adds] using h)
    | top_sells cap n => simpa [count_adds] using ih s (by simpa [count_adds] using h)
    | total_trades_executed => simpa [count_adds] using ih s (by simpa [count_adds] using h)

theorem length_added_ids (ops : List Op) : (added_ids ops).length = count_adds ops := by
  induction ops with
  | nil => rfl
  | cons op ops ih => cases op <;> simp [added_ids, count_adds, ih]

/-- A run in which the orders handed to `add_order` carry pairwise distinct 64-bit ids, as
the data model has it, makes at most `2 ^ 64` calls of `add_order`. -/
theorem count_adds_le_of_distinct_ids (ops : List Op) (hnd : (added_ids ops).Nodup)
    (hlt : ∀ i ∈ added_ids ops, i < 2 ^ 64) : count_adds ops ≤ 2 ^ 64 := by
  have hsub : (added_ids ops).toFinset ⊆ Finset.range (2 ^ 64) := by
    intro i hi
    rw [List.mem_toFinset] at hi
    exact Finset.mem_range.mpr (hlt i hi)
  have hcard := Finset.card_le_card hsub
  rw [List.toFinset_card_of_nodup hnd, Finset.card_range, length_added_ids] at hcard
  exact hcard

/-- In a book whose counter holds `2 ^ 64 - 1`, a state that takes more than `2 ^ 64`
calls of `add_order` to reach, a trade brings the counter to 0: the bound in
`run_ops_counter` is needed. -/
theorem counter_wraps_at_max :
    ex_book_wrap.total_trades_executed = 18446744073709551615 ∧
    (run_ops ex_book_wrap [Op.match_]).total_trades_executed = 0 := by
  decide

/-- An order that is another order with a new quantity has its other fields. -/
theorem same_fields {x y : Order} (h : x = { y with qty := x.qty }) :
    x.id = y.id ∧ x.trader = y.trader ∧ x.is_buy = y.is_buy ∧ x.price = y.price ∧
    x.time = y.time := by
  rw [h]
  exact ⟨rfl, rfl, rfl, rfl, rfl⟩

/-! ## At most one partial fill -/

/-- In a queue with pairwise distinct ids, what `pop()` leaves is not the order `top()`
returned. -/
theorem pq_pop_ne_top {cmp : Order → Order → Bool} {q : List Order} {t x : Order}
    (hnd : (q.map Order.id).Nodup) (ht : pq_top cmp q = some t) (hx : x ∈ pq_pop cmp q) :
    x ≠ t := by
  unfold pq_pop at hx
  rw [ht] at hx
  exact ((List.Nodup.of_map _ hnd).mem_erase_iff.mp hx).1

/-- The best order of a queue, put back with another quantity, is the best order again. -/
theorem pq_top_push_back {cmp : Order → Order → Bool} (hc : IsRanking cmp) {q : List Order}
    {t : Order} (ht : pq_top cmp q = some t) (k : Nat) :
    pq_top cmp (pq_push (pq_pop cmp q) { t with qty := k }) = some { t with qty := k } := by
  simp only [pq_push, pq_top]
  cases hm : pq_top cmp (pq_pop cmp q) with
  | none => rfl
  | some m =>
    have h1 : cmp t m = false := pq_top_max hc ht m (pq_pop_subset (pq_top_mem hm))
    have h2 : cmp { t with qty := k } m = cmp t m := hc.congr_left _ _ _ rfl rfl
    simp [h2, h1]

/-- One side of `OnePartial` after an iteration. -/
theorem side_top_after {cmp : Order → Order → Bool} (hc : IsRanking cmp) {q0 q : List Order}
    {t : Order} (hnd : (q.map Order.id).Nodup) (ht : pq_top cmp q = some t)
    (hq : ∀ x ∈ q, x ∉ q0 → pq_top cmp q = some x) (k : Nat) :
    (∀ x ∈ pq_pop cmp q, x ∈ q0) ∧
    (∀ x ∈ pq_push (pq_pop cmp q) { t with qty := k }, x ∉ q0 →
      pq_top cmp (pq_push (pq_pop cmp q) { t with qty := k }) = some x) := by
  have hpop : ∀ x ∈ pq_pop cmp q, x ∈ q0 := by
    intro x hx
    by_contra hn
    have h1 := hq x (pq_pop_subset hx) hn
    rw [ht] at h1
    exact pq_pop_ne_top hnd ht hx (Option.some.inj h1).symm
  refine ⟨hpop, ?_⟩
  intro x hx hn
  rcases List.mem_cons.mp hx with rfl | hx
  · exact pq_top_push_back hc ht k
  · exact absurd (hpop x hx) hn

/-- One trading iteration keeps `OnePartial`. -/
theorem match_step_onePartial {s0 t t1 : OrderBook}
    (hb : (t.buys_.map Order.id).Nodup) (ha : (t.sells_.map Order.id).Nodup)
    (inv : OnePartial s0 t) (h : match_step t = some t1) : OnePartial s0 t1 := by
  obtain ⟨buy, sell, hbt, hat, -, rfl⟩ := match_step_eq_some.mp h
  obtain ⟨b1, b2⟩ := side_top_after BuyCmp_isRanking hb hbt inv.buys_top
    (buy.qty - min buy.qty sell.qty)
  obtain ⟨a1, a2⟩ := side_top_after SellCmp_isRanking ha hat inv.sells_top
    (sell.qty - min buy.qty sell.qty)
  refine ⟨?_, ?_, ?_⟩
  · intro x hx hn
    simp only [traded] at hx ⊢
    split at hx
    · rename_i hpos
      rw [if_pos hpos]
      exact b2 x hx hn
    · exact absurd (b1 x hx) hn
  · intro x hx hn
    simp only [traded] at hx ⊢
    split at hx
    · rename_i hpos
      rw [if_pos hpos]
      exact a2 x hx hn
    · exact absurd (a1 x hx) hn
  · simp only [traded]
    rcases Nat.le_total buy.qty sell.qty with hq | hq
    · left
      have h0 : ¬ (buy.qty - min buy.qty sell.qty > 0) := by
        rw [Nat.min_eq_left hq]; omega
      rw [if_neg h0]
      exact b1
    · right
      have h0 : ¬ (sell.qty - min buy.qty sell.qty > 0) := by
        rw [Nat.min_eq_right hq]; omega
      rw [if_neg h0]
      exact a1

/-- One trading iteration keeps `SideInv` on both sides. -/
theorem match_step_sideInv {s0 t t1 : OrderBook} (hb : (s0.buys_.map Order.id).Nodup)
    (ha : (s0.sells_.map Order.id).Nodup) (ib : SideInv BuyCmp s0.buys_ t.buys_)
    (ia : SideInv SellCmp s0.sells_ t.sells_) (h : match_step t = some t1) :
    SideInv BuyCmp s0.buys_ t1.buys_ ∧ SideInv SellCmp s0.sells_ t1.sells_ := by
  obtain ⟨buy, sell, hbt, hat, -, rfl⟩ := match_step_eq_some.mp h
  constructor
  · refine SideInv.serve BuyCmp_isRanking hb ib hbt (buy.qty - min buy.qty sell.qty)
      (Nat.sub_le _ _) _ ?_
    simp only [traded]
    split
    · exact Or.inr rfl
    · exact Or.inl rfl
  · refine SideInv.serve SellCmp_isRanking ha ia hat (sell.qty - min buy.qty sell.qty)
      (Nat.sub_le _ _) _ ?_
    simp only [traded]
    split
    · exact Or.inr rfl
    · exact Or.inl rfl

/-- One call of `match()` keeps `OnePartial`. -/
theorem match_onePartial (s : OrderBook) (hb : (s.buys_.map Order.id).Nodup)
    (ha : (s.sells_.map Order.id).Nodup) : OnePartial s s.match_ := by
  have key := match_induct
    (fun t => (SideInv BuyCmp s.buys_ t.buys_ ∧ SideInv SellCmp s.sells_ t.sells_) ∧
      OnePartial s t)
    (fun t t1 ht hstep =>
      ⟨match_step_sideInv hb ha ht.1.1 ht.1.2 hstep,
       match_step_onePartial ht.1.1.nodup ht.1.2.nodup ht.2 hstep⟩)
    (s.buys_.length + s.sells_.length) s
    ⟨⟨SideInv.start BuyCmp hb, SideInv.start SellCmp ha⟩,
     ⟨fun x hx hn => absurd hx hn, fun x hx hn => absurd hx hn, Or.inl fun _ hx => hx⟩⟩
  exact key.2

/-- An order whose quantity differs from the quantity of the order of the same id before
the call is not in the queue of before the call. -/
theorem not_mem_of_changed {q0 : List Order} (hnd : (q0.map Order.id).Nodup) {x : Order}
    (h : changed q0 x) : x ∉ q0 := by
  obtain ⟨y, hy, hid, hq⟩ := h
  intro hx
  have : y = x := List.inj_on_of_nodup_map hnd hy hx hid
  exact hq (by rw [this])

/-! ## Snapshots -/

/-- What the loop of `snapshot_pq` does to the queue it copies: the orders behind the rows
(`taken`, in the order of the rows) and the orders left over (`rest`) make up the queue,
the rows are as many as asked for or as there are, no order left over ranks above an order
taken, and the orders taken are in ranking order. -/
theorem snapshot_loop_spec {cmp : Order → Order → Bool} (hc : IsRanking cmp) (n : Nat) :
    ∀ q : List Order, ∃ taken rest : List Order,
      q.Perm (taken ++ rest) ∧ snapshot_loop cmp n q = taken.map Order.toRow ∧
      taken.length = min n q.length ∧ (∀ t ∈ taken, ∀ r ∈ rest, cmp t r = false) ∧
      taken.Pairwise (fun a b => cmp a b = false) := by
  induction n with
  | zero =>
    intro q
    exact ⟨[], q, by simp, by simp [snapshot_loop], by simp, by simp, List.Pairwise.nil⟩
  | succ n ih =>
    intro q
    cases ht : pq_top cmp q with
    | none =>
      have hq : q = [] := pq_top_eq_none.mp ht
      subst hq
      exact ⟨[], [], by simp, by simp [snapshot_loop, pq_top], by simp, by simp,
        List.Pairwise.nil⟩
    | some o =>
      obtain ⟨taken, rest, hperm, hrows, hlen, hrank, hsorted⟩ := ih (pq_pop cmp q)
      have hq : q.Perm (o :: pq_pop cmp q) := pq_pop_perm ht
      have hmax := pq_top_max hc ht
      have hsub : ∀ x ∈ taken ++ rest, x ∈ q := fun x hx =>
        pq_pop_subset (hperm.symm.subset hx)
      refine ⟨o :: taken, rest, ?_, ?_, ?_, ?_, ?_⟩
      · exact hq.trans (List.Perm.cons o hperm)
      · simp only [snapshot_loop, ht, List.map_cons, hrows]
      · have := pq_pop_length ht
        simp only [List.length_cons, hlen]
        omega
      · intro t htm r hr
        rcases List.mem_cons.mp htm with rfl | htm
        · exact hmax r (hsub r (List.mem_append_right _ hr))
        · exact hrank t htm r hr
      · refine List.Pairwise.cons ?_ hsorted
        intro x hx
        exact hmax x (hsub x (List.mem_append_left _ hx))

/-- The rows of a snapshot of a bid queue come best first: price descending, and id
ascending among equal prices. -/
theorem snapshot_loop_buy_sorted (n : Nat) (q : List Order) :
    (snapshot_loop BuyCmp n q).Pairwise (fun r1 r2 =>
      r2.price < r1.price ∨ (r1.price = r2.price ∧ r1.earliest_order_id ≤ r2.earliest_order_id)) := by
  obtain ⟨taken, rest, -, hrows, -, -, hsorted⟩ := snapshot_loop_spec BuyCmp_isRanking n q
  rw [hrows, List.pairwise_map]
  exact hsorted.imp fun {a b} h => (BuyCmp_eq_false a b).mp h

/-- The rows of a snapshot of an ask queue come best first: price ascending, and id
ascending among equal prices. -/
theorem snapshot_loop_sell_sorted (n : Nat) (q : List Order) :
    (snapshot_loop SellCmp n q).Pairwise (fun r1 r2 =>
      r1.price < r2.price ∨ (r1.price = r2.price ∧ r1.earliest_order_id ≤ r2.earliest_order_id)) := by
  obtain ⟨taken, rest, -, hrows, -, -, hsorted⟩ := snapshot_loop_spec SellCmp_isRanking n q
  rw [hrows, List.pairwise_map]
  exact hsorted.imp fun {a b} h => (SellCmp_eq_false a b).mp h

/-- The rows of a snapshot of a queue with pairwise distinct ids, row by row: they are as
many as asked for or as there are, they carry pairwise distinct ids, each is the row of an
order of the queue, and an order of the queue whose row was not returned does not rank
above the order behind any returned row. -/
theorem snapshot_loop_rows {cmp : Order → Order → Bool} (hc : IsRanking cmp) (n : Nat)
    (q : List Order) (hnd : (q.map Order.id).Nodup) :
    (snapshot_loop cmp n q).length = min n q.length ∧
    ((snapshot_loop cmp n q).map TopRow.earliest_order_id).Nodup ∧
    (∀ row ∈ snapshot_loop cmp n q, ∃ o ∈ q, o.toRow = row) ∧
    (∀ o ∈ q, o.toRow ∉ snapshot_loop cmp n q →
      ∀ row ∈ snapshot_loop cmp n q, ∃ t ∈ q, t.toRow = row ∧ cmp t o = false) := by
  obtain ⟨taken, rest, hperm, hrows, hlen, hrank, -⟩ := snapshot_loop_spec hc n q
  have hsub : ∀ x ∈ taken, x ∈ q := fun x hx => hperm.symm.subset (List.mem_append_left _ hx)
  rw [hrows]
  refine ⟨by simpa using hlen, ?_, ?_, ?_⟩
  · have h1 : ((taken ++ rest).map Order.id).Nodup := ((hperm.map Order.id).nodup_iff).mp hnd
    rw [List.map_append] at h1
    have h2 : (taken.map Order.id).Nodup := (List.nodup_append.mp h1).1
    simpa [List.map_map, Function.comp_def, Order.toRow] using h2
  · intro row hrow
    obtain ⟨t, ht, rfl⟩ := List.mem_map.mp hrow
    exact ⟨t, hsub t ht, rfl⟩
  · intro o ho hnot row hrow
    obtain ⟨t, ht, rfl⟩ := List.mem_map.mp hrow
    have hor : o ∈ rest := by
      rcases List.mem_append.mp (hperm.subset ho) with h | h
      · exact absurd (List.mem_map_of_mem _ h) hnot
      · exact h
    exact ⟨t, hsub t ht, rfl, hrank t ht o hor⟩

/-- The rows of the loop of `snapshot_pq` are the first `n` of the whole queue put in
ranking order. -/
theorem snapshot_loop_take {cmp : Order → Order → Bool} (hc : IsRanking cmp) (n : Nat)
    (q : List Order) :
    ∃ l : List Order, l.Perm q ∧ l.Pairwise (fun a b => cmp a b = false) ∧
      snapshot_loop cmp n q = (l.take n).map Order.toRow := by
  obtain ⟨taken, rest, hperm, hrows, hlen, hrank, hsorted⟩ := snapshot_loop_spec hc n q
  obtain ⟨more, left, hperm2, -, hlen2, -, hsorted2⟩ :=
    snapshot_loop_spec hc rest.length rest
  have hleft : left = [] := by
    have h1 := hperm2.length_eq
    simp only [List.length_append, Nat.min_self] at h1 hlen2
    exact List.length_eq_zero.mp (by omega)
  subst hleft
  rw [List.append_nil] at hperm2
  have hql : q.length = taken.length + rest.length := by
    have := hperm.length_eq
    simpa using this
  refine ⟨taken ++ more, ?_, ?_, ?_⟩
  · exact ((List.Perm.append_left taken hperm2).symm).trans hperm.symm
  · rw [List.pairwise_append]
    exact ⟨hsorted, hsorted2, fun a ha b hb => hrank a ha b (hperm2.symm.subset hb)⟩
  · rw [hrows]
    congr 1
    by_cases hn : n ≤ q.length
    · have h1 : taken.length = n := by rw [hlen]; exact Nat.min_eq_left hn
      rw [← h1, List.take_left']
      rfl
    · have h1 : taken.length = q.length := by rw [hlen]; exact Nat.min_eq_right (by omega)
      have h2 : rest = [] := List.length_eq_zero.mp (by omega)
      subst h2
      have h3 : more = [] := List.length_eq_zero.mp (by simpa using hlen2)
      subst h3
      rw [List.append_nil, List.take_of_length_le (by omega)]

/-- The queues of a book after a sequence of `add_order` calls: the orders it held and,
side by side, the orders submitted. -/
theorem add_orders_perm (os : List Order) : ∀ s : OrderBook,
    (os.foldl OrderBook.add_order s).buys_.Perm (os.filter (fun o => o.is_buy) ++ s.buys_) ∧
    (os.foldl OrderBook.add_order s).sells_.Perm
      (os.filter (fun o => !o.is_buy) ++ s.sells_) := by
  induction os with
  | nil => intro s; exact ⟨List.Perm.refl _, List.Perm.refl _⟩
  | cons o os ih =>
    intro s
    obtain ⟨h1, h2⟩ := ih (s.add_order o)
    simp only [List.foldl_cons]
    cases ho : o.is_buy
    · have e1 : (s.add_order o).buys_ = s.buys_ := by simp [OrderBook.add_order, ho]
      have e2 : (s.add_order o).sells_ = o :: s.sells_ := by
        simp [OrderBook.add_order, ho, pq_push]
      rw [e1] at h1
      rw [e2] at h2
      refine ⟨by simpa [List.filter_cons, ho] using h1, ?_⟩
      simp only [List.filter_cons, ho, Bool.not_false, if_true, List.cons_append]
      exact h2.trans List.perm_middle
    · have e1 : (s.add_order o).buys_ = o :: s.buys_ := by
        simp [OrderBook.add_order, ho, pq_push]
      have e2 : (s.add_order o).sells_ = s.sells_ := by simp [OrderBook.add_order, ho]
      rw [e1] at h1
      rw [e2] at h2
      refine ⟨?_, by simpa [List.filter_cons, ho] using h2⟩
      simp only [List.filter_cons, ho, if_true, List.cons_append]
      exact h1.trans List.perm_middle

/-- Calls of `top_buys` and `top_sells` leave the book as it is. -/
theorem run_ops_snapshots (ops : List Op) (s : OrderBook)
    (h : ∀ op ∈ ops, (∃ c m, op = Op.top_buys c m) ∨ (∃ c m, op = Op.top_sells c m)) :
    run_ops s ops = s := by
  induction ops generalizing s with
  | nil => rfl
  | cons op ops ih =>
    have hrest := fun o ho => h o (List.mem_cons_of_mem _ ho)
    show run_ops (Op.run s op) ops = s
    rcases h op (List.mem_cons_self _ _) with ⟨c, m, rfl⟩ | ⟨c, m, rfl⟩
    · exact ih s hrest
    · exact ih s hrest

/-- The rows of `top_buys(n)` and `top_sells(n)` when `rows.reserve(n)` goes through, on a
book with pairwise distinct ids on each side: exactly `min n k` rows (`k` the number of
orders resting on the side), with pairwise distinct ids, each the (price, quantity, id) of
an order resting on the side, and an order of the side whose row is not returned has,
against every returned row, a price that is not better and, at the same price, an id that
is not lower. -/
theorem top_rows_of_reserve_ok (s : OrderBook) (cap n : Nat) (hok : reserve_ok cap n = true)
    (hb : (s.buys_.map Order.id).Nodup) (ha : (s.sells_.map Order.id).Nodup) :
    (∃ rows, (s.top_buys cap n).1 = some rows ∧ rows.length = min n s.buys_.length ∧
      (rows.map TopRow.earliest_order_id).Nodup ∧
      (∀ row ∈ rows, ∃ o ∈ s.buys_, row = ⟨o.price, o.qty, o.id⟩) ∧
      (∀ o ∈ s.buys_, (⟨o.price, o.qty, o.id⟩ : TopRow) ∉ rows →
        ∀ row ∈ rows,
          o.price ≤ row.price ∧ (o.price = row.price → row.earliest_order_id ≤ o.id))) ∧
    (∃ rows, (s.top_sells cap n).1 = some rows ∧ rows.length = min n s.sells_.length ∧
      (rows.map TopRow.earliest_order_id).Nodup ∧
      (∀ row ∈ rows, ∃ o ∈ s.sells_, row = ⟨o.price, o.qty, o.id⟩) ∧
      (∀ o ∈ s.sells_, (⟨o.price, o.qty, o.id⟩ : TopRow) ∉ rows →
        ∀ row ∈ rows,
          row.price ≤ o.price ∧ (o.price = row.price → row.earliest_order_id ≤ o.id))) := by
  obtain ⟨b1, b2, b3, b4⟩ := snapshot_loop_rows BuyCmp_isRanking n s.buys_ hb
  obtain ⟨a1, a2, a3, a4⟩ := snapshot_loop_rows SellCmp_isRanking n s.sells_ ha
  refine ⟨⟨snapshot_loop BuyCmp n s.buys_, by simp [OrderBook.top_buys, snapshot_pq, hok],
      b1, b2, ?_, ?_⟩,
    ⟨snapshot_loop SellCmp n s.sells_, by simp [OrderBook.top_sells, snapshot_pq, hok],
      a1, a2, ?_, ?_⟩⟩
  · intro row hrow
    obtain ⟨o, ho, rfl⟩ := b3 row hrow
    exact ⟨o, ho, rfl⟩
  · intro o ho hnot row hrow
    obtain ⟨t, -, rfl, hcmp⟩ := b4 o ho hnot row hrow
    rcases (BuyCmp_eq_false t o).mp hcmp with h | ⟨h1, h2⟩
    · exact ⟨le_of_lt h, fun he => absurd he (ne_of_lt h)⟩
    · exact ⟨le_of_eq h1.symm, fun _ => h2⟩
  · intro row hrow
    obtain ⟨o, ho, rfl⟩ := a3 row hrow
    exact ⟨o, ho, rfl⟩
  · intro o ho hnot row hrow
    obtain ⟨t, -, rfl, hcmp⟩ := a4 o ho hnot row hrow
    rcases (SellCmp_eq_false t o).mp hcmp with h | ⟨h1, h2⟩
    · exact ⟨le_of_lt h, fun he => absurd he.symm (ne_of_lt h)⟩
    · exact ⟨le_of_eq h1, fun _ => h2⟩

/-- For `n = 2 ^ 64 - 1` the call `rows.reserve(n)` throws, whatever the memory. -/
theorem reserve_ok_size_max (cap : Nat) : reserve_ok cap 18446744073709551615 = false := by
  simp [reserve_ok]

/-! ## The claims -/

/-- C1: after `match()` the book is uncrossed, every resting buy is priced strictly below
every resting sell (vacuously when a side is empty); and on any book, the best bid being
priced below the best ask is enough for every bid to be priced below every ask. -/
theorem C1_match_uncrossed (s : OrderBook) :
    (∀ b ∈ s.match_.buys_, ∀ a ∈ s.match_.sells_, b.price < a.price) ∧
    (∀ (t : OrderBook) (bb ba : Order), pq_top BuyCmp t.buys_ = some bb →
      pq_top SellCmp t.sells_ = some ba → bb.price < ba.price →
      ∀ b ∈ t.buys_, ∀ a ∈ t.sells_, b.price < a.price) :=
  ⟨uncrossed_of_step_none (match_step_match_ s),
   fun _ _ _ hb ha hlt => uncrossed_of_best hb ha hlt⟩

/-- C1 on the book with buys 100 x 30, 98 x 5 and sells 99 x 50, 101 x 5: after the
matching pass the buy at 98 and the sells at 99 (quantity 20) and 101 rest, uncrossed. -/
theorem C1_match_uncrossed_witness :
    ex_book_crossed.match_.buys_ = [ex_buy_98] ∧
    ex_book_crossed.match_.sells_ = [⟨1, "Trader_1", false, 99, 20, 0⟩, ex_sell_101] ∧
    ex_buy_98.price < ex_sell_101.price :=
  ⟨by decide, by decide,
   (C1_match_uncrossed ex_book_crossed).1 ex_buy_98 (by decide) ex_sell_101 (by decide)⟩

/-- C2: for every sequence `os` of `add_order` calls on an empty book and every `n`,
`top_buys(n)`, when `rows.reserve(n)` goes through, returns the rows of the first `n` of
the submitted buy orders put in the order of price descending and, at equal prices, id
ascending (all of them when they are fewer than `n`), and `top_sells(n)` the rows of the
first `n` of the submitted sell orders put in the order of price ascending and, at equal
prices, id ascending; so of any two rows returned the earlier one has the better price, or
the same price and an id that is not larger. -/
theorem C2_snapshot_sorted (symbol : String) (os : List Order) (cap n : Nat) :
    (∃ l : List Order, l.Perm (os.filter (fun o => o.is_buy)) ∧
      l.Pairwise (fun a b => b.price < a.price ∨ (a.price = b.price ∧ a.id ≤ b.id)) ∧
      ((os.foldl OrderBook.add_order (OrderBook.new symbol)).top_buys cap n).1 =
        if reserve_ok cap n then some ((l.take n).map Order.toRow) else none) ∧
    (∃ l : List Order, l.Perm (os.filter (fun o => !o.is_buy)) ∧
      l.Pairwise (fun a b => a.price < b.price ∨ (a.price = b.price ∧ a.id ≤ b.id)) ∧
      ((os.foldl OrderBook.add_order (OrderBook.new symbol)).top_sells cap n).1 =
        if reserve_ok cap n then some ((l.take n).map Order.toRow) else none) ∧
    (∀ rows, ((os.foldl OrderBook.add_order (OrderBook.new symbol)).top_buys cap n).1
        = some rows →
      rows.Pairwise (fun r1 r2 => r2.price < r1.price ∨
        (r1.price = r2.price ∧ r1.earliest_order_id ≤ r2.earliest_order_id))) ∧
    (∀ rows, ((os.foldl OrderBook.add_order (OrderBook.new symbol)).top_sells cap n).1
        = some rows →
      rows.Pairwise (fun r1 r2 => r1.price < r2.price ∨
        (r1.price = r2.price ∧ r1.earliest_order_id ≤ r2.earliest_order_id))) := by
  obtain ⟨hb, ha⟩ := add_orders_perm os (OrderBook.new symbol)
  simp only [OrderBook.new, List.append_nil] at hb ha
  obtain ⟨lb, hlb, hsb, hrb⟩ := snapshot_loop_take BuyCmp_isRanking n
    (os.foldl OrderBook.add_order (OrderBook.new symbol)).buys_
  obtain ⟨la, hla, hsa, hra⟩ := snapshot_loop_take SellCmp_isRanking n
    (os.foldl OrderBook.add_order (OrderBook.new symbol)).sells_
  refine ⟨⟨lb, hlb.trans hb, hsb.imp fun {a b} h => (BuyCmp_eq_false a b).mp h, ?_⟩,
    ⟨la, hla.trans ha, hsa.imp fun {a b} h => (SellCmp_eq_false a b).mp h, ?_⟩, ?_, ?_⟩
  · simp only [OrderBook.top_buys, snapshot_pq, hrb]
  · simp only [OrderBook.top_sells, snapshot_pq, hra]
  · intro rows hrows
    simp only [OrderBook.top_buys, snapshot_pq] at hrows
    split at hrows
    · rw [← Option.some.inj hrows]
      exact snapshot_loop_buy_sorted n _
    · exact absurd hrows (by simp)
  · intro rows hrows
    simp only [OrderBook.top_sells, snapshot_pq] at hrows
    split at hrows
    · rw [← Option.some.inj hrows]
      exact snapshot_loop_sell_sorted n _
    · exact absurd hrows (by simp)

/-- C2 on the submissions sell 99 x 50 (id 1), buy 100 x 30 (id 2), buy 98 x 5 (id 3), sell
101 x 5 (id 4), buy 100 x 7 (id 5): `top_buys(2)` returns the two buys at 100, id 2 before
id 5, `top_buys(9)` all three buys with the one at 98 last, `top_sells(9)` the sell at 99
before the sell at 101. -/
theorem C2_snapshot_sorted_witness :
    ((ex_submissions.foldl OrderBook.add_order (OrderBook.new "ABC")).top_buys 64 2).1
      = some [⟨100, 30, 2⟩, ⟨100, 7, 5⟩] ∧
    ((ex_submissions.foldl OrderBook.add_order (OrderBook.new "ABC")).top_buys 64 9).1
      = some [⟨100, 30, 2⟩, ⟨100, 7, 5⟩, ⟨98, 5, 3⟩] ∧
    ((ex_submissions.foldl OrderBook.add_order (OrderBook.new "ABC")).top_sells 64 9).1
      = some [⟨99, 50, 1⟩, ⟨101, 5, 4⟩] ∧
    ([⟨100, 30, 2⟩, ⟨100, 7, 5⟩, ⟨98, 5, 3⟩] : List TopRow).Pairwise
      (fun r1 r2 => r2.price < r1.price ∨
        (r1.price = r2.price ∧ r1.earliest_order_id ≤ r2.earliest_order_id)) :=
  ⟨by decide, by decide, by decide,
   (C2_snapshot_sorted "ABC" ex_submissions 64 9).2.2.1 _ (by decide)⟩

/-- C3: on a book whose resting orders have pairwise distinct ids on each side, when
`match()` removes a buy order `b` or reduces its quantity, every buy order `z` that ranked
strictly above `b` before the call (higher price, or same price and lower id) has nothing
left in the book after the call; and the same for sell orders, where the order that ranks
above has the lower price, or the same price and the lower id.  The quantities need not be
positive. -/
theorem C3_price_time_priority (s : OrderBook) (hb : (s.buys_.map Order.id).Nodup)
    (ha : (s.sells_.map Order.id).Nodup) :
    (∀ b ∈ s.buys_,
      ((∀ x ∈ s.match_.buys_, x.id ≠ b.id) ∨
        (∃ x ∈ s.match_.buys_, x.id = b.id ∧ x.qty < b.qty)) →
      ∀ z ∈ s.buys_, (b.price < z.price ∨ (b.price = z.price ∧ z.id < b.id)) →
      ∀ w ∈ s.match_.buys_, w.id ≠ z.id) ∧
    (∀ a ∈ s.sells_,
      ((∀ x ∈ s.match_.sells_, x.id ≠ a.id) ∨
        (∃ x ∈ s.match_.sells_, x.id = a.id ∧ x.qty < a.qty)) →
      ∀ z ∈ s.sells_, (z.price < a.price ∨ (a.price = z.price ∧ z.id < a.id)) →
      ∀ w ∈ s.match_.sells_, w.id ≠ z.id) := by
  obtain ⟨ib, ia⟩ := match_sideInv s hb ha
  constructor
  · intro b hbm htouched z hz hrank
    exact ib.served b hbm (ib.not_mem_of_touched b htouched) z hz
      ((BuyCmp_eq_true b z).mpr hrank)
  · intro a ham htouched z hz hrank
    exact ia.served a ham (ia.not_mem_of_touched a htouched) z hz
      ((SellCmp_eq_true a z).mpr hrank)

/-- C3 on a sell 99 x 50 and buys 100 x 30 (id 2), 99 x 40 (id 3), 98 x 5 (id 4): the pass
fills the buy at 100 whole and the buy at 99 in part (20 left); the buy at 100 ranked above
the buy at 99, and the order left with id 3 is not it. -/
theorem C3_price_time_priority_witness :
    (ex_book_priority.buys_.map Order.id).Nodup ∧
    (ex_book_priority.sells_.map Order.id).Nodup ∧
    ex_book_priority.match_.buys_ =
      [⟨3, "Trader_3", true, 99, 20, 2⟩, ⟨4, "Trader_4", true, 98, 5, 3⟩] ∧
    ex_book_priority.match_.sells_ = [] ∧
    (⟨3, "Trader_3", true, 99, 20, 2⟩ : Order).id ≠ (⟨2, "Trader_2", true, 100, 30, 1⟩ : Order).id :=
  ⟨by decide, by decide, by decide, by decide,
   (C3_price_time_priority ex_book_priority (by decide) (by decide)).1
     ⟨3, "Trader_3", true, 99, 40, 2⟩ (by decide)
     (Or.inr ⟨⟨3, "Trader_3", true, 99, 20, 2⟩, by decide, rfl, by decide⟩)
     ⟨2, "Trader_2", true, 100, 30, 1⟩ (by decide) (Or.inl (by decide))
     ⟨3, "Trader_3", true, 99, 20, 2⟩ (by decide)⟩

/-- C4: on a book holding exactly one buy `b` and one sell `a` with `b.price >= a.price`,
`match()` bumps the trade counter once (by one, in 64-bit arithmetic), removes the order
with the smaller quantity (both when the quantities are equal) and leaves the other
resting, unchanged but for its quantity, which is the difference of the two quantities.
The quantities need not be positive. -/
theorem C4_single_pair (s : OrderBook) (b a : Order) (hb : s.buys_ = [b])
    (ha : s.sells_ = [a]) (hp : a.price ≤ b.price) :
    s.match_ = { s with
      buys_ := if a.qty < b.qty then [{ b with qty := b.qty - a.qty }] else []
      sells_ := if b.qty < a.qty then [{ a with qty := a.qty - b.qty }] else []
      trades_executed_ := (s.trades_executed_ + 1) % 2 ^ 64 } := by
  have hbt : pq_top BuyCmp s.buys_ = some b := by rw [hb]; simp [pq_top]
  have hat : pq_top SellCmp s.sells_ = some a := by rw [ha]; simp [pq_top]
  have hstep : match_step s = some (traded s b a) :=
    match_step_eq_some.mpr ⟨b, a, hbt, hat, hp, rfl⟩
  have hpopb : pq_pop BuyCmp s.buys_ = [] := by unfold pq_pop; rw [hbt, hb]; simp
  have hpopa : pq_pop SellCmp s.sells_ = [] := by unfold pq_pop; rw [hat, ha]; simp
  have htr : traded s b a = { s with
      buys_ := if a.qty < b.qty then [{ b with qty := b.qty - a.qty }] else []
      sells_ := if b.qty < a.qty then [{ a with qty := a.qty - b.qty }] else []
      trades_executed_ := (s.trades_executed_ + 1) % 2 ^ 64 } := by
    simp only [traded, hpopb, hpopa, pq_push]
    rcases Nat.lt_trichotomy a.qty b.qty with h | h | h
    · have h1 : min b.qty a.qty = a.qty := Nat.min_eq_right (by omega)
      have h2 : b.qty - a.qty > 0 := by omega
      have h3 : ¬ b.qty < a.qty := by omega
      simp only [h1, h2, h, h3, if_true, if_false, Nat.sub_self, gt_iff_lt, Nat.lt_irrefl]
    · simp [h]
    · have h1 : min b.qty a.qty = b.qty := Nat.min_eq_left (by omega)
      have h2 : a.qty - b.qty > 0 := by omega
      have h3 : ¬ a.qty < b.qty := by omega
      simp only [h1, h2, h, h3, if_true, if_false, Nat.sub_self, gt_iff_lt, Nat.lt_irrefl]
  rw [match_unfold hstep, htr]
  apply match_of_none
  rw [match_step_eq_none]
  simp only
  by_cases h : a.qty < b.qty
  · right; left
    have h3 : ¬ b.qty < a.qty := by omega
    simp [h3]
  · left; simp [h]

/-- C4 on the example of the spec: a resting sell 99 x 50 and a buy 100 x 30 give one
trade, the sell resting with quantity 20 at price 99, and no row in `top_buys`. -/
theorem C4_single_pair_witness :
    ex_book_pair.buys_ = [⟨2, "Trader_2", true, 100, 30, 1⟩] ∧
    ex_book_pair.sells_ = [⟨1, "Trader_1", false, 99, 50, 0⟩] ∧
    ex_book_pair.match_ = ⟨"ABC", [], [⟨1, "Trader_1", false, 99, 20, 0⟩], 1⟩ ∧
    (ex_book_pair.match_.top_buys 64 5).1 = some [] ∧
    (ex_book_pair.match_.top_sells 64 5).1 = some [⟨99, 20, 1⟩] :=
  ⟨rfl, rfl,
   (C4_single_pair ex_book_pair ⟨2, "Trader_2", true, 100, 30, 1⟩
      ⟨1, "Trader_1", false, 99, 50, 0⟩ rfl rfl (by decide)).trans (by decide),
   by decide, by decide⟩

/-- C5: on a book in which a side is empty or the best bid is priced strictly below the
best ask, any number `k` of consecutive calls of `match()` leaves the bids, the asks and
the trade counter (the whole book) exactly as they were. -/
theorem C5_no_trade_when_apart (s : OrderBook) (k : Nat)
    (h : s.buys_ = [] ∨ s.sells_ = [] ∨
      ∃ bb ba, pq_top BuyCmp s.buys_ = some bb ∧ pq_top SellCmp s.sells_ = some ba ∧
        bb.price < ba.price) :
    OrderBook.match_^[k] s = s :=
  Function.iterate_fixed (match_of_none (match_step_eq_none.mpr h)) k

/-- C5 on a buy at 99 and a sell at 100: three calls of `match()` change nothing. -/
theorem C5_no_trade_when_apart_witness :
    (ex_book_apart.buys_ = [] ∨ ex_book_apart.sells_ = [] ∨
      ∃ bb ba, pq_top BuyCmp ex_book_apart.buys_ = some bb ∧
        pq_top SellCmp ex_book_apart.sells_ = some ba ∧ bb.price < ba.price) ∧
    OrderBook.match_^[3] ex_book_apart = ex_book_apart ∧
    ex_book_apart.buys_.length = 1 ∧ ex_book_apart.sells_.length = 1 ∧
    ex_book_apart.trades_executed_ = 0 :=
  have h : ex_book_apart.buys_ = [] ∨ ex_book_apart.sells_ = [] ∨
      ∃ bb ba, pq_top BuyCmp ex_book_apart.buys_ = some bb ∧
        pq_top SellCmp ex_book_apart.sells_ = some ba ∧ bb.price < ba.price :=
    Or.inr (Or.inr ⟨_, _, rfl, rfl, by decide⟩)
  ⟨h, C5_no_trade_when_apart ex_book_apart 3 h, by decide, by decide, by decide⟩

/-- C6: `match()` is idempotent, a second call right after the first leaves the whole
book (both rankings and the trade counter) unchanged. -/
theorem C6_match_idempotent (s : OrderBook) : s.match_.match_ = s.match_ :=
  match_of_none (match_step_match_ s)

/-- C7: on a book holding exactly one buy `b` and `k >= 1` sells, all priced at or below
`b` and with quantities that add up to `S < b.qty`, `match()` empties the ask side, bumps
the trade counter `k` times (by `k`, in 64-bit arithmetic) and leaves `b` resting,
unchanged but for its quantity, which is `b.qty - S`.  The ids need not be distinct and
the quantities of the sells need not be positive. -/
theorem C7_multi_level_drain (s : OrderBook) (b : Order) (hb : s.buys_ = [b])
    (hk : s.sells_ ≠ []) (hprice : ∀ a ∈ s.sells_, a.price ≤ b.price)
    (hsum : (s.sells_.map Order.qty).sum < b.qty) :
    s.match_ = { s with
      buys_ := [{ b with qty := b.qty - (s.sells_.map Order.qty).sum }]
      sells_ := []
      trades_executed_ := (s.trades_executed_ + s.sells_.length) % 2 ^ 64 } := by
  obtain ⟨k, hlen⟩ : ∃ k, s.sells_.length = k + 1 :=
    ⟨s.sells_.length - 1, by have := List.length_pos.mpr hk; omega⟩
  rw [match_drains_asks (k + 1) s b hb hlen hprice hsum, iterate_bump, hlen]

/-- C7 on the example of the spec: sells 98 x 10 and 99 x 10 and a buy 100 x 25 give two
trade events, no sell left, and the buy resting with quantity 5 at price 100. -/
theorem C7_multi_level_drain_witness :
    ex_book_drain.buys_ = [⟨3, "Trader_3", true, 100, 25, 2⟩] ∧
    ex_book_drain.sells_ ≠ [] ∧
    (∀ a ∈ ex_book_drain.sells_, a.price ≤ (100 : ℚ)) ∧
    (ex_book_drain.sells_.map Order.qty).sum < 25 ∧
    ex_book_drain.match_ = ⟨"ABC", [⟨3, "Trader_3", true, 100, 5, 2⟩], [], 2⟩ :=
  ⟨rfl, by decide, by decide, by decide,
   (C7_multi_level_drain ex_book_drain ⟨3, "Trader_3", true, 100, 25, 2⟩ rfl (by decide)
      (by decide) (by decide)).trans (by decide)⟩

/-- C8: in every book reached from the empty book by calls of the public operations in
which every order given to `add_order` has a positive quantity, every order resting in
the bids or in the asks has a positive quantity. -/
theorem C8_positive_quantity (symbol : String) (ops : List Op)
    (h : ∀ o, Op.add_order o ∈ ops → 0 < o.qty) :
    ∀ x ∈ (run_ops (OrderBook.new symbol) ops).buys_ ++
      (run_ops (OrderBook.new symbol) ops).sells_, 0 < x.qty := by
  have key : ∀ (ops : List Op) (s : OrderBook), (∀ o, Op.add_order o ∈ ops → 0 < o.qty) →
      (∀ x ∈ s.buys_ ++ s.sells_, 0 < x.qty) →
      ∀ x ∈ (run_ops s ops).buys_ ++ (run_ops s ops).sells_, 0 < x.qty := by
    intro ops
    induction ops with
    | nil => intro s _ hs; exact hs
    | cons op ops ih =>
      intro s hops hs
      have hrest : ∀ o, Op.add_order o ∈ ops → 0 < o.qty :=
        fun o ho => hops o (List.mem_cons_of_mem _ ho)
      show ∀ x ∈ (run_ops (Op.run s op) ops).buys_ ++ (run_ops (Op.run s op) ops).sells_,
        0 < x.qty
      apply ih _ hrest
      cases op with
      | add_order o =>
        have ho : 0 < o.qty := hops o (List.mem_cons_self _ _)
        intro x hx
        simp only [Op.run, OrderBook.add_order, pq_push] at hx
        split at hx
        · simp only [List.cons_append, List.mem_cons] at hx
          rcases hx with rfl | hx
          · exact ho
          · exact hs x hx
        · simp only [List.mem_append, List.mem_cons] at hx
          rcases hx with hx | rfl | hx
          · exact hs x (List.mem_append_left _ hx)
          · exact ho
          · exact hs x (List.mem_append_right _ hx)
      | match_ => exact match_pos s hs
      | top_buys cap n => exact hs
      | top_sells cap n => exact hs
      | total_trades_executed => exact hs
  exact key ops _ h (by simp [OrderBook.new])

/-- C8 on four orders of positive quantity with matching passes in between: the orders
that rest at the end are the buy 99 x 20 and the sell 101 x 7. -/
theorem C8_positive_quantity_witness :
    (∀ o, Op.add_order o ∈ ex_ops → 0 < o.qty) ∧
    (run_ops (OrderBook.new "ABC") ex_ops).buys_ = [⟨3, "Trader_3", true, 99, 20, 2⟩] ∧
    (run_ops (OrderBook.new "ABC") ex_ops).sells_ = [⟨4, "Trader_4", false, 101, 7, 3⟩] ∧
    (0 < (20 : Nat) ∧ 0 < (7 : Nat)) :=
  have h : ∀ o, Op.add_order o ∈ ex_ops → 0 < o.qty := by
    intro o ho
    simp only [ex_ops, List.mem_cons, Op.add_order.injEq, reduceCtorEq, false_or,
      List.mem_nil_iff, or_false] at ho
    rcases ho with rfl | rfl | rfl | rfl <;> decide
  ⟨h, by decide, by decide,
   C8_positive_quantity "ABC" ex_ops h ⟨3, "Trader_3", true, 99, 20, 2⟩ (by decide),
   C8_positive_quantity "ABC" ex_ops h ⟨4, "Trader_4", false, 101, 7, 3⟩ (by decide)⟩

/-- C9: `top_buys(n)` and `top_sells(n)` leave the book (bids, asks and trade counter) as
it is, whether they return rows or throw, so after any sequence `ops` of snapshot calls the
book is the one before them and a `match()` then gives the same book and counter as a
`match()` without those calls. -/
theorem C9_snapshots_non_destructive (s : OrderBook) (cap n : Nat) (ops : List Op)
    (h : ∀ op ∈ ops, (∃ c m, op = Op.top_buys c m) ∨ (∃ c m, op = Op.top_sells c m)) :
    (s.top_buys cap n).2 = s ∧ (s.top_sells cap n).2 = s ∧
    run_ops s ops = s ∧ (run_ops s ops).match_ = s.match_ :=
  ⟨rfl, rfl, run_ops_snapshots ops s h, by rw [run_ops_snapshots ops s h]⟩

/-- C9 on the book with buys 100 x 30, 98 x 5 and sells 99 x 50, 101 x 5, read three
times before the matching pass. -/
theorem C9_snapshots_non_destructive_witness :
    (∀ op ∈ [Op.top_buys 64 1, Op.top_sells 64 2, Op.top_buys 64 0],
      (∃ c m, op = Op.top_buys c m) ∨ (∃ c m, op = Op.top_sells c m)) ∧
    (ex_book_crossed.top_buys 64 1).1 = some [⟨100, 30, 2⟩] ∧
    (ex_book_crossed.top_buys 64 1).2 = ex_book_crossed ∧
    (run_ops ex_book_crossed [Op.top_buys 64 1, Op.top_sells 64 2, Op.top_buys 64 0]).match_
      = ex_book_crossed.match_ :=
  have h : ∀ op ∈ [Op.top_buys 64 1, Op.top_sells 64 2, Op.top_buys 64 0],
      (∃ c m, op = Op.top_buys c m) ∨ (∃ c m, op = Op.top_sells c m) := by
    intro op hop
    simp only [List.mem_cons, List.mem_nil_iff, or_false] at hop
    rcases hop with rfl | rfl | rfl
    · exact Or.inl ⟨64, 1, rfl⟩
    · exact Or.inr ⟨64, 2, rfl⟩
    · exact Or.inl ⟨64, 0, rfl⟩
  ⟨h, by decide,
   (C9_snapshots_non_destructive ex_book_crossed 64 1 _ h).1,
   (C9_snapshots_non_destructive ex_book_crossed 64 1 _ h).2.2.2⟩

/-- C10, at the failing input: on the book with buys 100 x 30, 98 x 5 and sells 99 x 50,
101 x 5, `top_buys(n)` and `top_sells(n)` with `n = 2 ^ 64 - 1` throw from
`rows.reserve(n)`, whatever the memory at hand, where `min n k = 2` rows are to come back;
with `n = 5` the two rows of each side come back. -/
theorem C10_reserve_throws (cap : Nat) :
    (ex_book_crossed.top_buys cap 18446744073709551615).1 = none ∧
    (ex_book_crossed.top_sells cap 18446744073709551615).1 = none ∧
    min 18446744073709551615 ex_book_crossed.buys_.length = 2 ∧
    min 18446744073709551615 ex_book_crossed.sells_.length = 2 ∧
    (ex_book_crossed.top_buys 64 5).1 = some [⟨100, 30, 2⟩, ⟨98, 5, 3⟩] ∧
    (ex_book_crossed.top_sells 64 5).1 = some [⟨99, 50, 1⟩, ⟨101, 5, 4⟩] := by
  refine ⟨?_, ?_, by decide, by decide, by decide, by decide⟩
  · simp only [OrderBook.top_buys, snapshot_pq, reserve_ok_size_max]
    rfl
  · simp only [OrderBook.top_sells, snapshot_pq, reserve_ok_size_max]
    rfl

/-- C11: `add_order(o)` on a buy order gives bids that are the old bids and one copy of
`o`, and leaves the asks, the trade counter and the symbol as they were; on a sell order it
gives asks that are the old asks and one copy of `o`, and leaves the bids, the trade counter
and the symbol as they were.  Whatever its price and quantity, the order rests in the book
after the call. -/
theorem C11_add_order_routes (s : OrderBook) (o : Order) :
    (o.is_buy = true →
      (s.add_order o).buys_.Perm (o :: s.buys_) ∧ (s.add_order o).sells_ = s.sells_ ∧
      (s.add_order o).trades_executed_ = s.trades_executed_ ∧
      (s.add_order o).symbol_ = s.symbol_) ∧
    (o.is_buy = false →
      (s.add_order o).sells_.Perm (o :: s.sells_) ∧ (s.add_order o).buys_ = s.buys_ ∧
      (s.add_order o).trades_executed_ = s.trades_executed_ ∧
      (s.add_order o).symbol_ = s.symbol_) ∧
    o ∈ (s.add_order o).buys_ ++ (s.add_order o).sells_ := by
  cases h : o.is_buy <;> simp [OrderBook.add_order, pq_push, h]

/-- C11 on a sell with quantity 0 and price -1 added to the book with buys 100 x 30, 98 x 5
and sells 99 x 50, 101 x 5: it joins the asks, the bids and the counter stay. -/
theorem C11_add_order_routes_witness :
    (⟨9, "Trader_9", false, -1, 0, 7⟩ : Order).is_buy = false ∧
    (ex_book_crossed.add_order ⟨9, "Trader_9", false, -1, 0, 7⟩).sells_.Perm
      (⟨9, "Trader_9", false, -1, 0, 7⟩ :: ex_book_crossed.sells_) ∧
    (ex_book_crossed.add_order ⟨9, "Trader_9", false, -1, 0, 7⟩).buys_ = ex_book_crossed.buys_ :=
  ⟨rfl,
   ((C11_add_order_routes ex_book_crossed ⟨9, "Trader_9", false, -1, 0, 7⟩).2.1 rfl).1,
   ((C11_add_order_routes ex_book_crossed ⟨9, "Trader_9", false, -1, 0, 7⟩).2.1 rfl).2.1⟩

/-- C12: on every book a run builds, that is the constructor followed by any calls `pre` of
the public operations, the value of `total_trades_executed()` after any further calls `ops`
is at least its value before them; the counter is 0 on construction, and every operation
but `match()` leaves it as it is.  The run makes at most `2 ^ 64` calls of `add_order`,
which is as many as there are 64-bit ids for its orders
(`count_adds_le_of_distinct_ids`). -/
theorem C12_counter_monotone (symbol : String) (pre ops : List Op)
    (h : count_adds (pre ++ ops) ≤ 2 ^ 64) :
    (run_ops (OrderBook.new symbol) pre).total_trades_executed ≤
      (run_ops (run_ops (OrderBook.new symbol) pre) ops).total_trades_executed ∧
    (OrderBook.new symbol).total_trades_executed = 0 ∧
    (∀ (s : OrderBook) (op : Op), op ≠ Op.match_ →
      (Op.run s op).total_trades_executed = s.total_trades_executed) := by
  rw [count_adds_append] at h
  have h0 : (OrderBook.new symbol).trades_executed_ + (OrderBook.new symbol).size = 0 := rfl
  obtain ⟨-, h1⟩ := run_ops_counter pre (OrderBook.new symbol) (by omega)
  obtain ⟨h2, -⟩ := run_ops_counter ops (run_ops (OrderBook.new symbol) pre) (by omega)
  refine ⟨h2, rfl, ?_⟩
  intro s op hop
  cases op with
  | add_order o =>
    simp only [Op.run, OrderBook.add_order, OrderBook.total_trades_executed]
    split <;> rfl
  | match_ => exact absurd rfl hop
  | top_buys cap n => rfl
  | top_sells cap n => rfl
  | total_trades_executed => rfl

/-- C12 on a new book: after four orders with matching passes in between the counter is 2,
and after one more sell and a matching pass it is 3. -/
theorem C12_counter_monotone_witness :
    count_adds (ex_ops ++ ex_ops_more) ≤ 2 ^ 64 ∧
    (run_ops (OrderBook.new "ABC") ex_ops).total_trades_executed = 2 ∧
    (run_ops (run_ops (OrderBook.new "ABC") ex_ops) ex_ops_more).total_trades_executed = 3 ∧
    (run_ops (OrderBook.new "ABC") ex_ops).total_trades_executed ≤
      (run_ops (run_ops (OrderBook.new "ABC") ex_ops) ex_ops_more).total_trades_executed :=
  ⟨by decide, by decide, by decide,
   (C12_counter_monotone "ABC" ex_ops ex_ops_more (by decide)).1⟩

/-- C14: `BuyCmp` and `SellCmp` are irreflexive and transitive, of two orders with
different ids exactly one is below the other, `BuyCmp a b` holds exactly when `b` has the
higher price or the same price and the lower id, and `SellCmp a b` holds exactly when `b`
has the lower price or the same price and the lower id. -/
theorem C14_rankings_total (a b c : Order) :
    (BuyCmp a a = false ∧
      (BuyCmp a b = true → BuyCmp b c = true → BuyCmp a c = true) ∧
      (a.id ≠ b.id → (BuyCmp a b = true ↔ BuyCmp b a = false)) ∧
      (BuyCmp a b = true ↔ a.price < b.price ∨ (a.price = b.price ∧ b.id < a.id))) ∧
    (SellCmp a a = false ∧
      (SellCmp a b = true → SellCmp b c = true → SellCmp a c = true) ∧
      (a.id ≠ b.id → (SellCmp a b = true ↔ SellCmp b a = false)) ∧
      (SellCmp a b = true ↔ b.price < a.price ∨ (a.price = b.price ∧ b.id < a.id))) := by
  refine ⟨⟨BuyCmp_isRanking.irrefl a, ?_, ?_, BuyCmp_eq_true a b⟩,
    ⟨SellCmp_isRanking.irrefl a, ?_, ?_, SellCmp_eq_true a b⟩⟩
  · intro h1 h2
    rw [BuyCmp_eq_true] at *
    rcases h1 with h1 | ⟨h1, h3⟩ <;> rcases h2 with h2 | ⟨h2, h4⟩
    · exact Or.inl (lt_trans h1 h2)
    · exact Or.inl (h2 ▸ h1)
    · exact Or.inl (h1 ▸ h2)
    · exact Or.inr ⟨h1.trans h2, lt_trans h4 h3⟩
  · intro hid
    rw [BuyCmp_eq_true, BuyCmp_eq_false]
    constructor
    · rintro (h | ⟨h1, h2⟩)
      · exact Or.inl h
      · exact Or.inr ⟨h1.symm, Nat.le_of_lt h2⟩
    · rintro (h | ⟨h1, h2⟩)
      · exact Or.inl h
      · exact Or.inr ⟨h1.symm, by omega⟩
  · intro h1 h2
    rw [SellCmp_eq_true] at *
    rcases h1 with h1 | ⟨h1, h3⟩ <;> rcases h2 with h2 | ⟨h2, h4⟩
    · exact Or.inl (lt_trans h2 h1)
    · exact Or.inl (h2 ▸ h1)
    · exact Or.inl (h1 ▸ h2)
    · exact Or.inr ⟨h1.trans h2, lt_trans h4 h3⟩
  · intro hid
    rw [SellCmp_eq_true, SellCmp_eq_false]
    constructor
    · rintro (h | ⟨h1, h2⟩)
      · exact Or.inl h
      · exact Or.inr ⟨h1.symm, Nat.le_of_lt h2⟩
    · rintro (h | ⟨h1, h2⟩)
      · exact Or.inl h
      · exact Or.inr ⟨h1.symm, by omega⟩

/-- C15: `match()` is total on every book, zero quantities and repeated ids included: a
trading iteration leaves strictly fewer resting orders than it found, so after at most as
many iterations as there are resting orders the loop is left, more iterations change
nothing, and the book `match()` returns is one on which the loop is left. -/
theorem C15_match_terminates (s : OrderBook) :
    (∀ s1, match_step s = some s1 →
      s1.buys_.length + s1.sells_.length < s.buys_.length + s.sells_.length) ∧
    (∃ n, n ≤ s.buys_.length + s.sells_.length ∧ match_step (match_loop n s) = none ∧
      ∀ m, n ≤ m → match_loop m s = match_loop n s) ∧
    match_step s.match_ = none := by
  refine ⟨?_, ⟨s.size, le_refl _, match_loop_quiescent _ s (le_refl _), ?_⟩,
    match_step_match_ s⟩
  · intro s1 h
    have := match_step_size h
    simp only [OrderBook.size] at this
    omega
  · intro m hm
    exact match_loop_congr m s.size s hm (le_refl _)

/-- C13: on a book with pairwise distinct ids on each side, every order resting after
`match()` has the id, trader, side, price and timestamp of an order that rested on the same
side before the call, and a quantity that is not larger; having the same price and id, it
compares with every order exactly as that order did, so it keeps its rank. -/
theorem C13_match_alters_quantities_only (s : OrderBook)
    (hb : (s.buys_.map Order.id).Nodup) (ha : (s.sells_.map Order.id).Nodup) :
    (∀ x ∈ s.match_.buys_, ∃ y ∈ s.buys_,
      x.id = y.id ∧ x.trader = y.trader ∧ x.is_buy = y.is_buy ∧ x.price = y.price ∧
      x.time = y.time ∧ x.qty ≤ y.qty ∧
      ∀ o, BuyCmp x o = BuyCmp y o ∧ BuyCmp o x = BuyCmp o y) ∧
    (∀ x ∈ s.match_.sells_, ∃ y ∈ s.sells_,
      x.id = y.id ∧ x.trader = y.trader ∧ x.is_buy = y.is_buy ∧ x.price = y.price ∧
      x.time = y.time ∧ x.qty ≤ y.qty ∧
      ∀ o, SellCmp x o = SellCmp y o ∧ SellCmp o x = SellCmp o y) := by
  obtain ⟨ib, ia⟩ := match_sideInv s hb ha
  constructor
  · intro x hx
    obtain ⟨y, hy, hxy, hle⟩ := ib.origin x hx
    obtain ⟨hid, htr, hside, hp, htime⟩ := same_fields hxy
    exact ⟨y, hy, hid, htr, hside, hp, htime, hle,
      fun o => ⟨BuyCmp_isRanking.congr_left x y o hp hid,
        BuyCmp_isRanking.congr_right x y o hp hid⟩⟩
  · intro x hx
    obtain ⟨y, hy, hxy, hle⟩ := ia.origin x hx
    obtain ⟨hid, htr, hside, hp, htime⟩ := same_fields hxy
    exact ⟨y, hy, hid, htr, hside, hp, htime, hle,
      fun o => ⟨SellCmp_isRanking.congr_left x y o hp hid,
        SellCmp_isRanking.congr_right x y o hp hid⟩⟩

/-- C13 on a sell 99 x 50 and buys 100 x 30, 99 x 40 (id 3), 98 x 5: the buy that rests
with quantity 20 after the pass is the buy of id 3, trader and timestamp kept, of which
40 rested before. -/
theorem C13_match_alters_quantities_only_witness :
    (ex_book_priority.buys_.map Order.id).Nodup ∧
    (ex_book_priority.sells_.map Order.id).Nodup ∧
    (⟨3, "Trader_3", true, 99, 20, 2⟩ : Order) ∈ ex_book_priority.match_.buys_ ∧
    (⟨3, "Trader_3", true, 99, 40, 2⟩ : Order) ∈ ex_book_priority.buys_ ∧
    ∃ y ∈ ex_book_priority.buys_, 3 = y.id ∧ "Trader_3" = y.trader ∧ 2 = y.time ∧ 20 ≤ y.qty :=
  ⟨by decide, by decide, by decide, by decide,
   match (C13_match_alters_quantities_only ex_book_priority (by decide) (by decide)).1
      ⟨3, "Trader_3", true, 99, 20, 2⟩ (by decide) with
   | ⟨y, hy, h1, h2, _, _, h5, h6, _⟩ => ⟨y, hy, h1, h2, h5, h6⟩⟩

/-- C17: one call of `match()` takes the same total quantity out of the bids as out of the
asks, neither total grows, and in every trading iteration the quantity subtracted is at
most each of the two quantities it is subtracted from, so that on 64-bit values the machine
subtraction does not wrap. -/
theorem C17_volume_conservation (s : OrderBook) :
    total_qty s.buys_ - total_qty s.match_.buys_ =
      total_qty s.sells_ - total_qty s.match_.sells_ ∧
    total_qty s.match_.buys_ ≤ total_qty s.buys_ ∧
    total_qty s.match_.sells_ ≤ total_qty s.sells_ ∧
    (∀ t t1, match_step t = some t1 → ∃ buy sell,
      pq_top BuyCmp t.buys_ = some buy ∧ pq_top SellCmp t.sells_ = some sell ∧
      t1 = traded t buy sell ∧
      min buy.qty sell.qty ≤ buy.qty ∧ min buy.qty sell.qty ≤ sell.qty ∧
      (buy.qty < 2 ^ 64 →
        (buy.qty + 2 ^ 64 - min buy.qty sell.qty) % 2 ^ 64 = buy.qty - min buy.qty sell.qty) ∧
      (sell.qty < 2 ^ 64 →
        (sell.qty + 2 ^ 64 - min buy.qty sell.qty) % 2 ^ 64
          = sell.qty - min buy.qty sell.qty)) := by
  obtain ⟨d, h1, h2⟩ := match_qty s
  refine ⟨by omega, by omega, by omega, ?_⟩
  intro t t1 h
  obtain ⟨buy, sell, hb, ha, -, rfl⟩ := match_step_eq_some.mp h
  refine ⟨buy, sell, hb, ha, rfl, Nat.min_le_left _ _, Nat.min_le_right _ _,
    qty_sub_no_wrap _ _, ?_⟩
  intro hlt
  rw [Nat.min_comm]
  exact qty_sub_no_wrap _ _ hlt

/-- C17 on a sell 99 x 50 and buys 100 x 30, 99 x 40, 98 x 5: the pass takes 50 units out
of each side. -/
theorem C17_volume_conservation_witness :
    total_qty ex_book_priority.buys_ = 75 ∧ total_qty ex_book_priority.match_.buys_ = 25 ∧
    total_qty ex_book_priority.sells_ = 50 ∧ total_qty ex_book_priority.match_.sells_ = 0 ∧
    total_qty ex_book_priority.buys_ - total_qty ex_book_priority.match_.buys_ =
      total_qty ex_book_priority.sells_ - total_qty ex_book_priority.match_.sells_ :=
  ⟨by decide, by decide, by decide, by decide, (C17_volume_conservation ex_book_priority).1⟩

/-- C18: on a book with pairwise distinct ids on each side, after `match()` at most one
resting order of the whole book has a quantity different from the one it had before the
call (two such buys are the same order, two such sells are the same order, and there are
not such a buy and such a sell together), and such an order is the best order of its side,
the one `top()` returns, and the single row of `top_buys(1)`, for a buy, or of
`top_sells(1)`, for a sell, whenever `rows.reserve(1)` goes through.  The quantities need
not be positive. -/
theorem C18_one_partial_fill (s : OrderBook)
    (hb : (s.buys_.map Order.id).Nodup) (ha : (s.sells_.map Order.id).Nodup) :
    (∀ x ∈ s.match_.buys_, ∀ y ∈ s.match_.buys_,
      changed s.buys_ x → changed s.buys_ y → x = y) ∧
    (∀ x ∈ s.match_.sells_, ∀ y ∈ s.match_.sells_,
      changed s.sells_ x → changed s.sells_ y → x = y) ∧
    ¬ ((∃ x ∈ s.match_.buys_, changed s.buys_ x) ∧
       (∃ y ∈ s.match_.sells_, changed s.sells_ y)) ∧
    (∀ x ∈ s.match_.buys_, changed s.buys_ x →
      pq_top BuyCmp s.match_.buys_ = some x ∧
      ∀ cap, 1 ≤ cap → (s.match_.top_buys cap 1).1 = some [⟨x.price, x.qty, x.id⟩]) ∧
    (∀ x ∈ s.match_.sells_, changed s.sells_ x →
      pq_top SellCmp s.match_.sells_ = some x ∧
      ∀ cap, 1 ≤ cap → (s.match_.top_sells cap 1).1 = some [⟨x.price, x.qty, x.id⟩]) := by
  have inv := match_onePartial s hb ha
  refine ⟨?_, ?_, ?_, ?_, ?_⟩
  · intro x hx y hy cx cy
    have h1 := inv.buys_top x hx (not_mem_of_changed hb cx)
    have h2 := inv.buys_top y hy (not_mem_of_changed hb cy)
    rw [h1] at h2
    exact Option.some.inj h2
  · intro x hx y hy cx cy
    have h1 := inv.sells_top x hx (not_mem_of_changed ha cx)
    have h2 := inv.sells_top y hy (not_mem_of_changed ha cy)
    rw [h1] at h2
    exact Option.some.inj h2
  · rintro ⟨⟨x, hx, cx⟩, ⟨y, hy, cy⟩⟩
    rcases inv.one_side with h | h
    · exact not_mem_of_changed hb cx (h x hx)
    · exact not_mem_of_changed ha cy (h y hy)
  · intro x hx cx
    have h1 := inv.buys_top x hx (not_mem_of_changed hb cx)
    refine ⟨h1, fun cap hcap => ?_⟩
    simp [OrderBook.top_buys, snapshot_pq, reserve_ok, hcap, snapshot_loop, h1, Order.toRow]
  · intro x hx cx
    have h1 := inv.sells_top x hx (not_mem_of_changed ha cx)
    refine ⟨h1, fun cap hcap => ?_⟩
    simp [OrderBook.top_sells, snapshot_pq, reserve_ok, hcap, snapshot_loop, h1, Order.toRow]

/-- C18 on a sell 99 x 50 and buys 100 x 30, 99 x 40 (id 3), 98 x 5: after the pass the buy
of id 3 rests with 20 of its 40 units, and it is the row of `top_buys(1)`. -/
theorem C18_one_partial_fill_witness :
    (ex_book_priority.buys_.map Order.id).Nodup ∧
    (ex_book_priority.sells_.map Order.id).Nodup ∧
    (⟨3, "Trader_3", true, 99, 20, 2⟩ : Order) ∈ ex_book_priority.match_.buys_ ∧
    changed ex_book_priority.buys_ ⟨3, "Trader_3", true, 99, 20, 2⟩ ∧
    (ex_book_priority.match_.top_buys 64 1).1 = some [⟨99, 20, 3⟩] :=
  have hc : changed ex_book_priority.buys_ ⟨3, "Trader_3", true, 99, 20, 2⟩ :=
    ⟨⟨3, "Trader_3", true, 99, 40, 2⟩, by decide, rfl, by decide⟩
  ⟨by decide, by decide, by decide, hc,
   ((C18_one_partial_fill ex_book_priority (by decide) (by decide)).2.2.2.1
     ⟨3, "Trader_3", true, 99, 20, 2⟩ (by decide) hc).2 64 (by decide)⟩

/-- C19: one call of `match()` on a book with `b` resting buys and `a` resting sells bumps
the trade counter once per trade event (so adds their number, short of a wrap of the 64-bit
counter); the trade events are at most `b + a - 1` when both sides hold an order and none
when a side is empty, in which case the counter stays; and the orders resting after the
call are at most `b + a` minus the number of trade events. -/
theorem C19_trade_event_bound (s : OrderBook) :
    s.match_.trades_executed_ = bump^[s.match_events] s.trades_executed_ ∧
    (s.trades_executed_ + s.match_events < 2 ^ 64 →
      s.match_.trades_executed_ = s.trades_executed_ + s.match_events) ∧
    (1 ≤ s.buys_.length → 1 ≤ s.sells_.length →
      s.match_events ≤ s.buys_.length + s.sells_.length - 1) ∧
    (s.buys_ = [] ∨ s.sells_ = [] →
      s.match_events = 0 ∧ s.match_.trades_executed_ = s.trades_executed_) ∧
    s.match_.buys_.length + s.match_.sells_.length + s.match_events
      ≤ s.buys_.length + s.sells_.length := by
  have hc : s.match_.trades_executed_ = bump^[s.match_events] s.trades_executed_ :=
    match_loop_counter s.size s
  refine ⟨hc, ?_, ?_, ?_, match_loop_size s.size s⟩
  · intro h
    rw [hc, iterate_bump_no_wrap _ _ h]
  · intro h1 h2
    have := trade_events_lt_size s.size s (List.length_pos.mp h1) (List.length_pos.mp h2)
    simp only [OrderBook.match_events, OrderBook.size] at this ⊢
    omega
  · intro h
    have hn : match_step s = none :=
      match_step_eq_none.mpr (h.elim Or.inl fun h => Or.inr (Or.inl h))
    exact ⟨trade_events_of_none hn _, by rw [match_of_none hn]⟩

/-- C19 on a sell 99 x 50 and buys 100 x 30, 99 x 40, 98 x 5 (`b = 3`, `a = 1`): two trade
events, the counter goes from 0 to 2, and two orders rest after the call. -/
theorem C19_trade_event_bound_witness :
    ex_book_priority.match_events = 2 ∧
    ex_book_priority.trades_executed_ = 0 ∧
    ex_book_priority.match_.trades_executed_ = 2 ∧
    ex_book_priority.match_.buys_.length + ex_book_priority.match_.sells_.length = 2 ∧
    ex_book_priority.match_events ≤
      ex_book_priority.buys_.length + ex_book_priority.sells_.length - 1 :=
  ⟨by decide, by decide, by decide, by decide,
   (C19_trade_event_bound ex_book_priority).2.2.1 (by decide) (by decide)⟩

end TradingSim
